import Mathlib

/-!
Verification development for the document-analyzer scheduling core
(`src/analyzer/scheduling.py`).

The Python module is shallowly embedded:
* Python dicts become insertion-ordered association lists
  (`List (String × α)`), with assignment modelled by `dictSet`
  (replace-in-place when the key exists, append otherwise) and lookup
  by `dictGet` — exactly the observable semantics of CPython dicts.
* `None`-able values become `Option`.
* Errors raised by the code become `Except`/`Option` results.
* External collaborators (the per-document `TermFrequencyAnalyzer`,
  file reading, and the Celery work queue) are abstracted into
  parameters: `analyze : String → TermMap` gives the term map obtained
  by reading and analyzing a document path, and per-step readiness of
  async jobs is an oracle `ready : String → Bool`.
* The order in which CPython enumerates an unordered `set` is not
  specified (it varies with the hash seed), so the sync strategy's
  `next(iter(set(...) - set(...)))` is modelled by a selection oracle
  `choose` constrained only to return an element of the set.
-/

set_option maxHeartbeats 1000000

namespace DocAnalyzer

/-- Per-term analysis data produced by the document analyzer:
`{'count': n, 'sentences': [...]}`. -/
structure TermData where
  count : Nat
  sentences : List String
deriving DecidableEq, Repr

/-- A per-document term map: a Python dict term → `TermData`, kept in
insertion order. -/
abbrev TermMap := List (String × TermData)

/-- One progress entry: `{'processed': bool, 'results': <dict or None>}`. -/
structure ProgressEntry where
  processed : Bool
  results : Option TermMap
deriving DecidableEq, Repr

/-- The `_progress` dictionary of `MultiDocAnalyzer`. -/
structure ProgressState where
  total : Nat
  completed : Nat
  details : List (String × ProgressEntry)
deriving DecidableEq, Repr

/-- The state of a `MultiDocAnalyzer` instance. The stopword set is
computed at construction through nltk (an external collaborator), so the
already-computed set is a construction parameter here. -/
structure AnalyzerState where
  docs : List String
  progress : ProgressState
  language : String
  started : Bool
  stem : Bool
  stopwords : List String
deriving DecidableEq, Repr

/-- Python dict assignment `d[k] = v`: replace in place when the key is
present (keeping its position), otherwise append at the end. -/
def dictSet (k : String) (v : α) : List (String × α) → List (String × α)
  | [] => [(k, v)]
  | (k0, v0) :: rest => if k0 = k then (k, v) :: rest else (k0, v0) :: dictSet k v rest

/-- Python dict lookup `d.get(k)` (`None` for a missing key). -/
def dictGet (k : String) : List (String × α) → Option α
  | [] => none
  | (k0, v0) :: rest => if k0 = k then some v0 else dictGet k rest

/-- The keys of a dict, in insertion order. -/
def dkeys (l : List (String × α)) : List String := l.map (·.1)

/-- The dict comprehension
`{doc: {'processed': False, 'results': None} for doc in self._docs}`. -/
def initDetails (docs : List String) : List (String × ProgressEntry) :=
  docs.foldl (fun acc d => dictSet d ⟨false, none⟩ acc) []

/-- `MultiDocAnalyzer.__init__(docs, language, stem)`.  The body has no
failure path that depends on `docs`: it always builds the progress
dictionary, even for an empty list.  (`StemmingTokenizer`/nltk can raise
for an unsupported language; that external computation is abstracted into
the `stopwords` parameter.) -/
def mInit (docs : List String) (language : String) (stem : Bool)
    (stopwords : List String) : AnalyzerState :=
  { docs := docs
  , progress :=
    { total := docs.length
    , completed := 0
    , details := initDetails docs }
  , language := language
  , started := false
  , stem := stem
  , stopwords := stopwords }

/-- `MultiDocAnalyzer._mark_doc_processed(doc, results)`: unconditionally
overwrite the entry and increment `completed`. -/
def markDocProcessed (doc : String) (results : Option TermMap)
    (s : AnalyzerState) : AnalyzerState :=
  { s with progress :=
    { s.progress with
      details := dictSet doc ⟨true, results⟩ s.progress.details
      completed := s.progress.completed + 1 } }

/-- `MultiDocAnalyzer.check_progress()`:
`(completed < total, completed)`. -/
def checkProgress (s : AnalyzerState) : Bool × Nat :=
  (decide (s.progress.completed < s.progress.total), s.progress.completed)

/-- Combined data for one term in the aggregate report. -/
structure CombinedData where
  count : Nat
  documents : List String
  sentences : List String
deriving DecidableEq, Repr

/-- The ways `combine_output` can raise: the explicit
`ValueError("Still processing!")` guard, and the `AttributeError` from
`doc_details['results'].items()` when `results` is `None`. -/
inductive CombineError where
  | stillProcessing
  | attributeError
deriving DecidableEq, Repr

/-- The body of the inner loop of `combine_output` for one
`(term, values)` pair of a document `doc`. -/
def combineTerm (doc : String) (acc : List (String × CombinedData))
    (term : String) (values : TermData) : List (String × CombinedData) :=
  match dictGet term acc with
  | some existing =>
      dictSet term
        { count := existing.count + values.count
        , documents := existing.documents ++ [doc]
        , sentences := existing.sentences ++ values.sentences } acc
  | none =>
      dictSet term
        { count := values.count
        , documents := [doc]
        , sentences := values.sentences } acc

/-- The inner loop of `combine_output`: fold one document's term map into
the accumulator. -/
def combineDoc (acc : List (String × CombinedData)) (doc : String)
    (tm : TermMap) : List (String × CombinedData) :=
  tm.foldl (fun a p => combineTerm doc a p.1 p.2) acc

/-- The outer loop of `combine_output` over `details.items()`; accessing
`.items()` on a `None` results raises (`attributeError`). -/
def combineFold (acc : List (String × CombinedData)) :
    List (String × ProgressEntry) →
    Except CombineError (List (String × CombinedData))
  | [] => .ok acc
  | (doc, e) :: rest =>
    match e.results with
    | none => .error .attributeError
    | some tm => combineFold (combineDoc acc doc tm) rest

/-- `sorted(items, key=lambda x: x[1]['count'], reverse=True)`: CPython's
sort is stable and `reverse=True` does not reorder equal keys, which is
exactly a stable sort under the comparison "my count is ≥ yours". -/
def pySortedByCountDesc (l : List (String × CombinedData)) :
    List (String × CombinedData) :=
  l.mergeSort (fun a b => decide (b.2.count ≤ a.2.count))

/-- `MultiDocAnalyzer.combine_output()`. -/
def combineOutput (s : AnalyzerState) :
    Except CombineError (List (String × CombinedData)) :=
  if (checkProgress s).1 then .error .stillProcessing
  else (combineFold [] s.progress.details).map pySortedByCountDesc

/-- `MultiDocAnalyzer.analysis_success()`. -/
def analysisSuccess (s : AnalyzerState) : Bool × List String :=
  if (checkProgress s).1 then (false, [])
  else
    ( s.progress.details.all (fun p => p.2.processed)
    , (s.progress.details.filter (fun p => p.2.results.isNone)).map (·.1) )

/-- `set(self._docs) - set(processed docs)` — the documents whose progress
entry is marked processed. -/
def processedDocs (s : AnalyzerState) : List String :=
  (s.progress.details.filter (fun p => p.2.processed)).map (·.1)

/-- The unprocessed documents (the set difference, carried as a list; its
enumeration order is abstracted by the `choose` oracle below). -/
def unprocessedDocs (s : AnalyzerState) : List String :=
  s.docs.filter (fun d => !(processedDocs s).contains d)

/-- `SyncMultiDocAnalyzer.perform_analysis()`.  `choose` models CPython's
unspecified `set` enumeration: `next(iter(...))` returns some element of
the set.  `none` models the `StopIteration` raised when the set difference
is empty while `completed < total`. -/
def syncStep (analyze : String → TermMap) (choose : List String → String)
    (s : AnalyzerState) : Option AnalyzerState :=
  if !(checkProgress s).1 then some s
  else
    match unprocessedDocs s with
    | [] => none
    | d :: ds =>
      let nextDoc := choose (d :: ds)
      some (markDocProcessed nextDoc (some (analyze nextDoc)) s)

/-- An admissible model of `next(iter(S))`: on a nonempty carrier it
returns an element of the carrier. -/
def Admissible (choose : List String → String) : Prop :=
  ∀ l : List String, l ≠ [] → choose l ∈ l

/-- Run `perform_analysis` once per oracle in the list (each `step()` call
may observe a different set-enumeration order). -/
def syncRun (analyze : String → TermMap) :
    List (List String → String) → AnalyzerState → Option AnalyzerState
  | [], s => some s
  | c :: cs, s => (syncStep analyze c s).bind (syncRun analyze cs)

/-- The state of an `AsyncMultiDocAnalyzer`: the base state plus the
`_tasks` dictionary.  A Celery `AsyncResult` handle is opaque to the
scheduler; since the remote analysis is a pure function of the submitted
payload, a pending handle is modelled as carrying the term map its
`get()` will return, and a consumed slot is `none` (Python `None`). -/
structure AsyncState where
  base : AnalyzerState
  tasks : List (String × Option TermMap)
deriving DecidableEq, Repr

/-- `AsyncMultiDocAnalyzer.__init__`: `_tasks = {}` plus the base
constructor (which leaves `_started = False`). -/
def asyncInit (docs : List String) (language : String) (stem : Bool)
    (stopwords : List String) : AsyncState :=
  { base := mInit docs language stem stopwords
  , tasks := [] }

/-- The dispatch branch of `AsyncMultiDocAnalyzer.perform_analysis`: set
`_started`, then submit one job per document in `self._docs` order and
record its handle. -/
def dispatchPhase (analyze : String → TermMap) (a : AsyncState) : AsyncState :=
  { base := { a.base with started := true }
  , tasks := a.base.docs.foldl (fun t d => dictSet d (some (analyze d)) t) a.tasks }

/-- The polling branch: iterate the task dictionary in insertion order;
for each non-`None` handle whose `ready()` is true, `get()` the result,
mark the document processed, and null the slot. -/
def pollPhase (ready : String → Bool) :
    List (String × Option TermMap) → AnalyzerState →
    List (String × Option TermMap) × AnalyzerState
  | [], base => ([], base)
  | (doc, t) :: rest, base =>
    match t with
    | some res =>
      if ready doc then
        let base1 := markDocProcessed doc (some res) base
        let p := pollPhase ready rest base1
        ((doc, none) :: p.1, p.2)
      else
        let p := pollPhase ready rest base
        ((doc, some res) :: p.1, p.2)
    | none =>
      let p := pollPhase ready rest base
      ((doc, none) :: p.1, p.2)

/-- `AsyncMultiDocAnalyzer.perform_analysis()`. -/
def asyncStep (analyze : String → TermMap) (ready : String → Bool)
    (a : AsyncState) : AsyncState :=
  if !(checkProgress a.base).1 then a
  else if a.base.started then
    let p := pollPhase ready a.tasks a.base
    { base := p.2, tasks := p.1 }
  else
    dispatchPhase analyze a

/-! ### Basic dictionary lemmas -/

theorem dictGet_dictSet_self (k : String) (v : α) (l : List (String × α)) :
    dictGet k (dictSet k v l) = some v := by
  induction l with
  | nil => simp [dictSet, dictGet]
  | cons p rest ih =>
    by_cases h : p.1 = k
    · simp [dictSet, dictGet, h]
    · simp [dictSet, dictGet, h, ih]

theorem dictGet_dictSet_ne (k u : String) (v : α) (l : List (String × α))
    (h : u ≠ k) : dictGet u (dictSet k v l) = dictGet u l := by
  have hku : k ≠ u := Ne.symm h
  induction l with
  | nil => simp [dictSet, dictGet, hku]
  | cons p rest ih =>
    rcases p with ⟨k0, v0⟩
    by_cases hk : k0 = k
    · subst hk
      simp [dictSet, dictGet, hku]
    · by_cases hu : k0 = u
      · subst hu
        simp [dictSet, dictGet, hk, h]
      · simp [dictSet, dictGet, hk, hu, ih]

theorem dictSet_eq_append_of_not_mem (k : String) (v : α)
    (l : List (String × α)) (h : k ∉ dkeys l) :
    dictSet k v l = l ++ [(k, v)] := by
  induction l with
  | nil => simp [dictSet]
  | cons p rest ih =>
    rcases p with ⟨k0, v0⟩
    simp only [dkeys, List.map_cons, List.mem_cons] at h
    push_neg at h
    have hne : k0 ≠ k := Ne.symm h.1
    simp only [dictSet, hne, if_false, List.cons_append, reduceIte]
    rw [ih (by simpa [dkeys] using h.2)]

theorem dkeys_dictSet_of_mem (k : String) (v : α) (l : List (String × α))
    (h : k ∈ dkeys l) : dkeys (dictSet k v l) = dkeys l := by
  induction l with
  | nil => simp [dkeys] at h
  | cons p rest ih =>
    rcases p with ⟨k0, v0⟩
    by_cases hk : k0 = k
    · simp [dictSet, dkeys, hk]
    · have hmem : k ∈ dkeys rest := by
        simp only [dkeys, List.map_cons, List.mem_cons] at h
        rcases h with h | h
        · exact absurd h.symm hk
        · simpa [dkeys] using h
      have hrec := ih hmem
      simp only [dkeys] at hrec ⊢
      simp [dictSet, hk, hrec]

theorem dictGet_eq_none_iff (k : String) (l : List (String × α)) :
    dictGet k l = none ↔ k ∉ dkeys l := by
  induction l with
  | nil => simp [dictGet, dkeys]
  | cons p rest ih =>
    rcases p with ⟨k0, v0⟩
    by_cases h : k0 = k
    · simp [dictGet, dkeys, h]
    · simp [dictGet, dkeys, h, ih, Ne.symm h]

theorem dictGet_isSome_iff (k : String) (l : List (String × α)) :
    (dictGet k l).isSome ↔ k ∈ dkeys l := by
  rcases hg : dictGet k l with _ | v
  · simpa using (dictGet_eq_none_iff k l).mp hg
  · have : k ∈ dkeys l := by
      by_contra hk
      rw [(dictGet_eq_none_iff k l).mpr hk] at hg
      exact Option.noConfusion hg
    simpa [this]

theorem mem_of_dictGet_eq_some (k : String) (v : α) (l : List (String × α))
    (h : dictGet k l = some v) : (k, v) ∈ l := by
  induction l with
  | nil => simp [dictGet] at h
  | cons p rest ih =>
    rcases p with ⟨k0, v0⟩
    by_cases hk : k0 = k
    · subst hk
      simp only [dictGet, if_pos, Option.some.injEq] at h
      subst h
      exact List.mem_cons_self _ _
    · simp only [dictGet, hk, if_false, reduceIte] at h
      exact List.mem_cons_of_mem _ (ih h)

theorem dictGet_eq_some_of_mem_nodup (k : String) (v : α)
    (l : List (String × α)) (hnd : (dkeys l).Nodup) (h : (k, v) ∈ l) :
    dictGet k l = some v := by
  induction l with
  | nil => simp at h
  | cons p rest ih =>
    simp only [dkeys, List.map_cons, List.nodup_cons] at hnd
    rcases List.mem_cons.mp h with h | h
    · subst h
      simp [dictGet]
    · have hne : p.1 ≠ k := by
        intro he
        exact hnd.1 (he ▸ (List.mem_map.mpr ⟨(k, v), h, rfl⟩))
      simp only [dictGet, hne, if_neg]
      exact ih hnd.2 h

theorem foldl_dictSet_eq_append (f : String → α) (docs : List String) :
    ∀ init : List (String × α), docs.Nodup → (∀ d ∈ docs, d ∉ dkeys init) →
    docs.foldl (fun t d => dictSet d (f d) t) init
      = init ++ docs.map (fun d => (d, f d)) := by
  induction docs with
  | nil => intro init _ _; simp
  | cons d ds ih =>
    intro init hnd hdisj
    simp only [List.foldl_cons]
    rw [dictSet_eq_append_of_not_mem d (f d) init (hdisj d (by simp))]
    rw [ih (init ++ [(d, f d)]) (List.nodup_cons.mp hnd).2 ?_]
    · simp
    · intro e he
      simp only [dkeys, List.map_append, List.mem_append, List.map_cons]
      push_neg
      refine ⟨fun hc => hdisj e (by simp [he]) hc, ?_⟩
      simp only [List.map_nil, List.mem_singleton]
      intro hc
      exact (List.nodup_cons.mp hnd).1 (hc ▸ he)

theorem initDetails_eq_map (docs : List String) (h : docs.Nodup) :
    initDetails docs = docs.map (fun d => (d, (⟨false, none⟩ : ProgressEntry))) := by
  simpa using foldl_dictSet_eq_append (fun _ => (⟨false, none⟩ : ProgressEntry))
    docs [] h (by simp [dkeys])

/-! ### The completed-count invariant -/

/-- `count(details[d].processed == true)` over a details dictionary. -/
def countProcessed (l : List (String × ProgressEntry)) : Nat :=
  (l.filter (fun p => p.2.processed)).length

theorem countProcessed_cons (p : String × ProgressEntry)
    (rest : List (String × ProgressEntry)) :
    countProcessed (p :: rest)
      = (if p.2.processed then 1 else 0) + countProcessed rest := by
  by_cases h : p.2.processed <;> simp [countProcessed, List.filter_cons, h] <;> omega

/-- Replacing the (first) entry of an existing key shifts the processed
count by the difference of the two processed flags. -/
theorem countProcessed_dictSet (doc : String) (v e : ProgressEntry)
    (l : List (String × ProgressEntry)) (h : dictGet doc l = some e) :
    countProcessed (dictSet doc v l) + (if e.processed then 1 else 0)
      = countProcessed l + (if v.processed then 1 else 0) := by
  induction l with
  | nil => simp [dictGet] at h
  | cons p rest ih =>
    rcases p with ⟨k0, e0⟩
    by_cases hk : k0 = doc
    · have he0 : e0 = e := by simpa [dictGet, hk] using h
      rw [← he0]
      rw [show dictSet doc v ((k0, e0) :: rest) = (doc, v) :: rest by simp [dictSet, hk]]
      rw [countProcessed_cons, countProcessed_cons]
      dsimp only
      omega
    · simp only [dictGet, hk, if_false, reduceIte] at h
      have hrec := ih h
      rw [show dictSet doc v ((k0, e0) :: rest) = (k0, e0) :: dictSet doc v rest by
        simp [dictSet, hk]]
      rw [countProcessed_cons, countProcessed_cons]
      omega

theorem countProcessed_le_length (l : List (String × ProgressEntry)) :
    countProcessed l ≤ l.length :=
  List.length_filter_le _ l

/-- If fewer entries are processed than there are entries, some entry is
unprocessed. -/
theorem exists_unprocessed_of_countProcessed_lt
    (l : List (String × ProgressEntry)) (h : countProcessed l < l.length) :
    ∃ p ∈ l, p.2.processed = false := by
  by_contra hc
  push_neg at hc
  have hall : ∀ p ∈ l, (fun p : String × ProgressEntry => p.2.processed) p = true := by
    intro p hp
    exact Bool.ne_false_iff.mp (hc p hp)
  have hlen := List.filter_length_eq_length.mpr hall
  simp only [countProcessed] at h
  omega

/-- The construction-time invariant maintained by both strategies. -/
def Inv (s : AnalyzerState) : Prop :=
  s.docs.Nodup ∧
  dkeys s.progress.details = s.docs ∧
  s.progress.total = s.docs.length ∧
  s.progress.completed = countProcessed s.progress.details

theorem dkeys_map_pair (f : String → α) (docs : List String) :
    dkeys (docs.map (fun d => (d, f d))) = docs := by
  induction docs with
  | nil => rfl
  | cons d ds ih =>
    simp only [dkeys, List.map_cons] at ih ⊢
    rw [ih]

theorem countProcessed_map_false (docs : List String) :
    countProcessed (docs.map (fun d => (d, (⟨false, none⟩ : ProgressEntry)))) = 0 := by
  induction docs with
  | nil => rfl
  | cons d ds ih => simpa [countProcessed, List.filter_cons] using ih

theorem inv_mInit (docs : List String) (language : String) (stem : Bool)
    (stopwords : List String) (h : docs.Nodup) :
    Inv (mInit docs language stem stopwords) := by
  refine ⟨h, ?_, rfl, ?_⟩
  · show dkeys (initDetails docs) = docs
    rw [initDetails_eq_map docs h, dkeys_map_pair]
  · show (0 : Nat) = countProcessed (initDetails docs)
    rw [initDetails_eq_map docs h, countProcessed_map_false]

theorem completed_le_total_of_inv (s : AnalyzerState) (h : Inv s) :
    s.progress.completed ≤ s.progress.total := by
  rcases h with ⟨-, hkeys, htot, hcomp⟩
  have h1 : countProcessed s.progress.details ≤ s.progress.details.length :=
    countProcessed_le_length _
  have h2 : s.progress.details.length = s.docs.length := by
    have := congrArg List.length hkeys
    simpa [dkeys] using this
  omega

/-! ### Sync strategy: characterization and invariant preservation -/

theorem mem_dkeys_of_mem_filter_keys (p : String × ProgressEntry → Bool)
    (l : List (String × ProgressEntry)) (d : String)
    (h : d ∈ (l.filter p).map (·.1)) : d ∈ dkeys l := by
  rcases List.mem_map.mp h with ⟨q, hq, hd⟩
  exact List.mem_map.mpr ⟨q, (List.mem_filter.mp hq).1, hd⟩

theorem contains_eq_decide_mem (l : List String) (d : String) :
    l.contains d = decide (d ∈ l) := List.elem_eq_mem d l

/-- With distinct keys, a document is among the processed keys exactly
when its own entry is processed. -/
theorem mem_filter_processed_iff (l : List (String × ProgressEntry))
    (d : String) (e : ProgressEntry) (hnd : (dkeys l).Nodup)
    (hget : dictGet d l = some e) :
    (d ∈ (l.filter (fun p => p.2.processed)).map (·.1)) ↔ e.processed = true := by
  induction l with
  | nil => simp [dictGet] at hget
  | cons p rest ih =>
    rcases p with ⟨k0, e0⟩
    simp only [dkeys, List.map_cons, List.nodup_cons] at hnd
    by_cases hk : k0 = d
    · subst hk
      have he : e0 = e := by simpa [dictGet] using hget
      rw [← he]
      cases hp : e0.processed with
      | true =>
        simp only [List.filter_cons, hp, if_true, reduceIte, List.map_cons]
        simp
      | false =>
        simp only [List.filter_cons, hp, if_false, reduceIte]
        constructor
        · intro hmem
          have hdk : k0 ∈ dkeys rest := mem_dkeys_of_mem_filter_keys _ rest k0 hmem
          exact absurd hdk (by simpa [dkeys] using hnd.1)
        · intro hc
          exact Bool.noConfusion hc
    · have hget2 : dictGet d rest = some e := by simpa [dictGet, hk] using hget
      have hrec := ih (by simpa [dkeys] using hnd.2) hget2
      cases hp : e0.processed with
      | true =>
        simp only [List.filter_cons, hp, if_true, reduceIte, List.map_cons,
          List.mem_cons]
        rw [← hrec]
        constructor
        · rintro (h1 | h1)
          · exact absurd h1.symm hk
          · exact h1
        · intro h1
          exact Or.inr h1
      | false =>
        simp only [List.filter_cons, hp, if_false, reduceIte]
        exact hrec

/-- Membership in the sync strategy's set difference, under the
invariant: exactly the documents whose entry is unprocessed. -/
theorem mem_unprocessedDocs_iff (s : AnalyzerState) (hInv : Inv s) (d : String) :
    d ∈ unprocessedDocs s
      ↔ ∃ e, dictGet d s.progress.details = some e ∧ e.processed = false := by
  obtain ⟨hnd, hkeys, -, -⟩ := hInv
  have hknd : (dkeys s.progress.details).Nodup := hkeys ▸ hnd
  constructor
  · intro h
    obtain ⟨hmem, hnc⟩ := List.mem_filter.mp h
    have hkey : d ∈ dkeys s.progress.details := hkeys ▸ hmem
    obtain ⟨e, hget⟩ := Option.isSome_iff_exists.mp ((dictGet_isSome_iff _ _).mpr hkey)
    refine ⟨e, hget, ?_⟩
    cases hpp : e.processed with
    | false => rfl
    | true =>
      have hmemp : d ∈ processedDocs s :=
        (mem_filter_processed_iff _ d e hknd hget).mpr hpp
      rw [contains_eq_decide_mem] at hnc
      simp only [Bool.not_eq_true', decide_eq_false_iff_not] at hnc
      exact absurd hmemp hnc
  · rintro ⟨e, hget, hp⟩
    apply List.mem_filter.mpr
    constructor
    · rw [← hkeys]
      exact (dictGet_isSome_iff _ _).mp (by simp [hget])
    · have hnp : d ∉ processedDocs s := by
        intro hc
        have hpt : e.processed = true :=
          (mem_filter_processed_iff _ d e hknd hget).mp hc
        rw [hp] at hpt
        exact Bool.noConfusion hpt
      rw [contains_eq_decide_mem]
      simp [hnp]

/-- While the analysis is in progress (and the invariant holds), the set
difference is nonempty — `next(iter(...))` cannot raise. -/
theorem unprocessedDocs_ne_nil (s : AnalyzerState) (hInv : Inv s)
    (hip : (checkProgress s).1 = true) : unprocessedDocs s ≠ [] := by
  obtain ⟨hnd, hkeys, htot, hcomp⟩ := hInv
  have hknd : (dkeys s.progress.details).Nodup := hkeys ▸ hnd
  have hlen : s.progress.details.length = s.docs.length := by
    have := congrArg List.length hkeys
    simpa [dkeys] using this
  have hlt : countProcessed s.progress.details < s.progress.details.length := by
    have : s.progress.completed < s.progress.total := by
      simpa [checkProgress] using hip
    omega
  obtain ⟨p, hmem, hp⟩ := exists_unprocessed_of_countProcessed_lt _ hlt
  have hget : dictGet p.1 s.progress.details = some p.2 :=
    dictGet_eq_some_of_mem_nodup p.1 p.2 _ hknd hmem
  have : p.1 ∈ unprocessedDocs s :=
    (mem_unprocessedDocs_iff s ⟨hnd, hkeys, htot, hcomp⟩ p.1).mpr ⟨p.2, hget, hp⟩
  intro hc
  rw [hc] at this
  exact absurd this (List.not_mem_nil _)

/-- In-progress characterization of one sync step: it marks exactly the
chosen document. -/
theorem syncStep_inProgress_eq (analyze : String → TermMap)
    (choose : List String → String) (s : AnalyzerState) (hInv : Inv s)
    (hip : (checkProgress s).1 = true) :
    ∃ d rest, unprocessedDocs s = d :: rest ∧
      syncStep analyze choose s
        = some (markDocProcessed (choose (d :: rest))
            (some (analyze (choose (d :: rest)))) s) := by
  rcases hu : unprocessedDocs s with _ | ⟨d, rest⟩
  · exact absurd hu (unprocessedDocs_ne_nil s hInv hip)
  · exact ⟨d, rest, rfl, by simp [syncStep, hip, hu]⟩

theorem inv_markDocProcessed (s : AnalyzerState) (doc : String)
    (r : Option TermMap) (e : ProgressEntry) (hInv : Inv s)
    (hget : dictGet doc s.progress.details = some e)
    (hp : e.processed = false) : Inv (markDocProcessed doc r s) := by
  obtain ⟨hnd, hkeys, htot, hcomp⟩ := hInv
  have hkey : doc ∈ dkeys s.progress.details :=
    (dictGet_isSome_iff _ _).mp (by simp [hget])
  refine ⟨hnd, ?_, htot, ?_⟩
  · show dkeys (dictSet doc ⟨true, r⟩ s.progress.details) = s.docs
    rw [dkeys_dictSet_of_mem _ _ _ hkey, hkeys]
  · show s.progress.completed + 1
      = countProcessed (dictSet doc ⟨true, r⟩ s.progress.details)
    have hcnt := countProcessed_dictSet doc ⟨true, r⟩ e s.progress.details hget
    simp [hp] at hcnt
    omega

/-- Invariant preservation through one sync step. -/
theorem inv_syncStep (analyze : String → TermMap)
    (choose : List String → String) (s s' : AnalyzerState) (hInv : Inv s)
    (hadm : Admissible choose)
    (hstep : syncStep analyze choose s = some s') : Inv s' := by
  by_cases hip : (checkProgress s).1
  · obtain ⟨d, rest, hu, heq⟩ := syncStep_inProgress_eq analyze choose s hInv hip
    rw [heq] at hstep
    have hs : s' = markDocProcessed (choose (d :: rest))
        (some (analyze (choose (d :: rest)))) s := by
      exact (Option.some.injEq _ _ ▸ hstep).symm
    have hc : choose (d :: rest) ∈ unprocessedDocs s := by
      rw [hu]
      exact hadm (d :: rest) (List.cons_ne_nil d rest)
    obtain ⟨e, hget, hp⟩ := (mem_unprocessedDocs_iff s hInv _).mp hc
    rw [hs]
    exact inv_markDocProcessed s _ _ e hInv hget hp
  · have : s' = s := by
      simp only [syncStep, Bool.not_eq_true] at hstep
      rw [if_pos (by simp [Bool.not_eq_true] at hip ⊢; exact hip)] at hstep
      exact (Option.some.injEq _ _ ▸ hstep).symm
    exact this ▸ hInv

/-- States reachable by constructing a `SyncMultiDocAnalyzer` on a
(duplicate-free) batch and calling `perform_analysis` any number of
times, each call seeing some admissible set-enumeration order. -/
inductive SyncReach (analyze : String → TermMap) : AnalyzerState → Prop where
  | init (docs : List String) (language : String) (stem : Bool)
      (stopwords : List String) : docs.Nodup →
      SyncReach analyze (mInit docs language stem stopwords)
  | step (choose : List String → String) (s s' : AnalyzerState) :
      SyncReach analyze s → Admissible choose →
      syncStep analyze choose s = some s' → SyncReach analyze s'

theorem inv_of_syncReach (analyze : String → TermMap) (s : AnalyzerState)
    (h : SyncReach analyze s) : Inv s := by
  induction h with
  | init docs language stem stopwords hnd => exact inv_mInit _ _ _ _ hnd
  | step choose s s' hr hadm hstep ih => exact inv_syncStep _ _ _ _ ih hadm hstep

/-- A sync step on a finished batch is a no-op. -/
theorem syncStep_done (analyze : String → TermMap)
    (choose : List String → String) (s : AnalyzerState)
    (hdone : (checkProgress s).1 = false) :
    syncStep analyze choose s = some s := by
  simp [syncStep, hdone]

/-- While in progress, one sync step succeeds and marks exactly one
previously-unprocessed document processed, incrementing `completed` by
one and leaving every other entry untouched. -/
theorem syncStep_marks_one (analyze : String → TermMap)
    (choose : List String → String) (s : AnalyzerState) (hInv : Inv s)
    (hadm : Admissible choose) (hip : (checkProgress s).1 = true) :
    ∃ d e s', syncStep analyze choose s = some s' ∧
      d ∈ s.docs ∧
      dictGet d s.progress.details = some e ∧ e.processed = false ∧
      dictGet d s'.progress.details = some ⟨true, some (analyze d)⟩ ∧
      s'.progress.completed = s.progress.completed + 1 ∧
      s'.progress.total = s.progress.total ∧
      s'.docs = s.docs ∧
      ∀ d2, d2 ≠ d →
        dictGet d2 s'.progress.details = dictGet d2 s.progress.details := by
  obtain ⟨d0, rest, hu, heq⟩ := syncStep_inProgress_eq analyze choose s hInv hip
  have hc : choose (d0 :: rest) ∈ unprocessedDocs s := by
    rw [hu]
    exact hadm _ (List.cons_ne_nil d0 rest)
  obtain ⟨e, hget, hp⟩ := (mem_unprocessedDocs_iff s hInv _).mp hc
  have hmemdocs : choose (d0 :: rest) ∈ s.docs :=
    List.mem_of_mem_filter hc
  refine ⟨choose (d0 :: rest), e,
    markDocProcessed (choose (d0 :: rest))
      (some (analyze (choose (d0 :: rest)))) s,
    heq, hmemdocs, hget, hp, ?_, rfl, rfl, rfl, ?_⟩
  · exact dictGet_dictSet_self _ _ _
  · intro d2 hne
    exact dictGet_dictSet_ne _ _ _ _ hne

/-- Running one admissible sync step per oracle from an invariant state:
the run never raises and `completed` grows to
`min (completed + number of steps) total`. -/
theorem syncRun_completed (analyze : String → TermMap)
    (oracles : List (List String → String)) :
    ∀ s : AnalyzerState, Inv s → (∀ c ∈ oracles, Admissible c) →
    ∃ final, syncRun analyze oracles s = some final ∧ Inv final ∧
      final.progress.completed
        = min (s.progress.completed + oracles.length) s.progress.total ∧
      final.progress.total = s.progress.total := by
  induction oracles with
  | nil =>
    intro s hInv _
    refine ⟨s, rfl, hInv, ?_, rfl⟩
    have := completed_le_total_of_inv s hInv
    simp
    omega
  | cons c cs ih =>
    intro s hInv hadm
    by_cases hip : (checkProgress s).1
    · obtain ⟨d, e, s', hstep, -, -, -, -, hcomp, htot, -, -⟩ :=
        syncStep_marks_one analyze c s hInv (hadm c (by simp)) hip
      have hInv' : Inv s' := inv_syncStep analyze c s s' hInv (hadm c (by simp)) hstep
      obtain ⟨final, hrun, hInvf, hcf, htf⟩ :=
        ih s' hInv' (fun c2 hc2 => hadm c2 (List.mem_cons_of_mem _ hc2))
      refine ⟨final, ?_, hInvf, ?_, ?_⟩
      · simp [syncRun, hstep, hrun]
      · rw [hcf, hcomp, htot]
        simp only [List.length_cons]
        omega
      · rw [htf, htot]
    · have hnip : (checkProgress s).1 = false := by
        simpa using hip
      have hstep := syncStep_done analyze c s hnip
      obtain ⟨final, hrun, hInvf, hcf, htf⟩ :=
        ih s hInv (fun c2 hc2 => hadm c2 (List.mem_cons_of_mem _ hc2))
      have hge : s.progress.total ≤ s.progress.completed := by
        simpa [checkProgress] using hnip
      have hle := completed_le_total_of_inv s hInv
      refine ⟨final, ?_, hInvf, ?_, htf⟩
      · simp [syncRun, hstep, hrun]
      · rw [hcf]
        simp only [List.length_cons]
        omega

/-! ### Async strategy: invariant and polling lemmas -/

/-- Invariant of reachable async states: the base invariant, task keys
drawn (without duplicates) from the progress keys, pending handles
sitting exactly on unprocessed documents, and the pre-dispatch state
being completely fresh. -/
def AsyncInv (a : AsyncState) : Prop :=
  Inv a.base ∧
  (∀ p ∈ a.tasks, p.1 ∈ dkeys a.base.progress.details) ∧
  (dkeys a.tasks).Nodup ∧
  (∀ p ∈ a.tasks, ∀ r : TermMap, p.2 = some r →
      ∀ e, dictGet p.1 a.base.progress.details = some e → e.processed = false) ∧
  (∀ p ∈ a.tasks, p.2 = none →
      ∀ e, dictGet p.1 a.base.progress.details = some e → e.processed = true) ∧
  (a.base.started = false →
      a.tasks = [] ∧ ∀ p ∈ a.base.progress.details, p.2.processed = false)

theorem asyncInv_init (docs : List String) (language : String) (stem : Bool)
    (stopwords : List String) (hnd : docs.Nodup) :
    AsyncInv (asyncInit docs language stem stopwords) := by
  refine ⟨inv_mInit docs language stem stopwords hnd, ?_, ?_, ?_, ?_, ?_⟩
  · intro p hp
    exact absurd hp (List.not_mem_nil p)
  · simp [asyncInit, dkeys]
  · intro p hp
    exact absurd hp (List.not_mem_nil p)
  · intro p hp
    exact absurd hp (List.not_mem_nil p)
  · intro _
    refine ⟨rfl, ?_⟩
    intro p hp
    show p.2.processed = false
    have : p ∈ docs.map (fun d => (d, (⟨false, none⟩ : ProgressEntry))) := by
      simpa [asyncInit, mInit, initDetails_eq_map docs hnd] using hp
    obtain ⟨d, -, hdp⟩ := List.mem_map.mp this
    rw [← hdp]

/-- Full specification of the polling loop, by induction over the task
table. -/
theorem pollPhase_spec (ready : String → Bool)
    (ts : List (String × Option TermMap)) :
    ∀ base : AnalyzerState, Inv base →
    (∀ p ∈ ts, p.1 ∈ dkeys base.progress.details) →
    (dkeys ts).Nodup →
    (∀ p ∈ ts, ∀ r : TermMap, p.2 = some r →
        ∀ e, dictGet p.1 base.progress.details = some e → e.processed = false) →
    (∀ p ∈ ts, p.2 = none →
        ∀ e, dictGet p.1 base.progress.details = some e → e.processed = true) →
    ∀ ts1 base1, pollPhase ready ts base = (ts1, base1) →
    Inv base1 ∧
    dkeys ts1 = dkeys ts ∧
    base1.docs = base.docs ∧
    base1.progress.total = base.progress.total ∧
    base1.started = base.started ∧
    base.progress.completed ≤ base1.progress.completed ∧
    (∀ d, d ∉ dkeys ts →
        dictGet d base1.progress.details = dictGet d base.progress.details) ∧
    (∀ p ∈ ts1, ∀ r : TermMap, p.2 = some r →
        ∀ e, dictGet p.1 base1.progress.details = some e → e.processed = false) ∧
    (∀ p ∈ ts1, p.2 = none →
        ∀ e, dictGet p.1 base1.progress.details = some e → e.processed = true) ∧
    ((∀ d, ready d = true) → ∀ p ∈ ts1, p.2 = none) := by
  induction ts with
  | nil =>
    intro base hInv hsub hnd hsome hnone ts1 base1 heq
    obtain ⟨h1, h2⟩ := Prod.mk.injEq _ _ _ _ ▸ heq
    subst h1
    subst h2
    refine ⟨hInv, rfl, rfl, rfl, rfl, Nat.le_refl _, fun d _ => rfl, ?_, ?_, ?_⟩
    · intro p hp
      exact absurd hp (List.not_mem_nil p)
    · intro p hp
      exact absurd hp (List.not_mem_nil p)
    · intro _ p hp
      exact absurd hp (List.not_mem_nil p)
  | cons q rest ih =>
    intro base hInv hsub hnd hsome hnone ts1 base1 heq
    rcases q with ⟨doc, t⟩
    have hdockey : doc ∈ dkeys base.progress.details := hsub (doc, t) (by simp)
    have hndc : (doc :: dkeys rest).Nodup := by
      simpa only [dkeys, List.map_cons] using hnd
    have hdocNotRest : doc ∉ dkeys rest := (List.nodup_cons.mp hndc).1
    have hndrest : (dkeys rest).Nodup := (List.nodup_cons.mp hndc).2
    match ht : t with
    | some res =>
      by_cases hr : ready doc
      · -- consume the handle and mark the document
        obtain ⟨e, hget⟩ := Option.isSome_iff_exists.mp
          ((dictGet_isSome_iff _ _).mpr hdockey)
        have hunproc : e.processed = false :=
          hsome (doc, some res) (by simp) res rfl e hget
        set base2 := markDocProcessed doc (some res) base with hbase2
        have hInv2 : Inv base2 := inv_markDocProcessed base doc (some res) e hInv hget hunproc
        have hkeys2 : dkeys base2.progress.details = dkeys base.progress.details := by
          show dkeys (dictSet doc ⟨true, some res⟩ base.progress.details) = _
          exact dkeys_dictSet_of_mem _ _ _ hdockey
        have hget2 : ∀ d2, d2 ≠ doc →
            dictGet d2 base2.progress.details = dictGet d2 base.progress.details := by
          intro d2 hne
          exact dictGet_dictSet_ne _ _ _ _ hne
        rcases hrec : pollPhase ready rest base2 with ⟨restOut, baseOut⟩
        have hstep : pollPhase ready ((doc, some res) :: rest) base
            = ((doc, none) :: restOut, baseOut) := by
          simp [pollPhase, hr, ← hbase2, hrec]
        rw [hstep] at heq
        obtain ⟨h1, h2⟩ := Prod.mk.injEq _ _ _ _ ▸ heq
        subst h1
        subst h2
        obtain ⟨iInv, ikeys, idocs, itot, istarted, imono, iout, isome, inone, iready⟩ :=
          ih base2 hInv2
            (fun p hp => hkeys2 ▸ hsub p (List.mem_cons_of_mem _ hp))
            hndrest
            (fun p hp r hpr e2 hge => by
              have hne : p.1 ≠ doc := by
                intro hx
                exact hdocNotRest (hx ▸ List.mem_map.mpr ⟨p, hp, rfl⟩)
              exact hsome p (List.mem_cons_of_mem _ hp) r hpr e2
                ((hget2 p.1 hne) ▸ hge))
            (fun p hp hpn e2 hge => by
              have hne : p.1 ≠ doc := by
                intro hx
                exact hdocNotRest (hx ▸ List.mem_map.mpr ⟨p, hp, rfl⟩)
              exact hnone p (List.mem_cons_of_mem _ hp) hpn e2
                ((hget2 p.1 hne) ▸ hge))
            restOut baseOut hrec
        have hdocFinal : dictGet doc baseOut.progress.details
            = some ⟨true, some res⟩ := by
          rw [iout doc hdocNotRest]
          exact dictGet_dictSet_self _ _ _
        refine ⟨iInv, ?_, idocs, itot, istarted, ?_, ?_, ?_, ?_, ?_⟩
        · simp only [dkeys, List.map_cons] at ikeys ⊢
          rw [ikeys]
        · have : base.progress.completed ≤ base2.progress.completed := by
            show base.progress.completed ≤ base.progress.completed + 1
            omega
          omega
        · intro d hd
          simp only [dkeys, List.map_cons, List.mem_cons] at hd
          push_neg at hd
          rw [iout d (by simpa [dkeys] using hd.2), hget2 d hd.1]
        · intro p hp r hpr e2 hge
          rcases List.mem_cons.mp hp with hp | hp
          · rw [hp] at hpr
            exact Option.noConfusion hpr
          · exact isome p hp r hpr e2 hge
        · intro p hp hpn e2 hge
          rcases List.mem_cons.mp hp with hp | hp
          · have hge2 : dictGet doc baseOut.progress.details = some e2 := by
              rw [hp] at hge
              simpa using hge
            rw [hdocFinal] at hge2
            have he2 : e2 = ⟨true, some res⟩ := by simpa using hge2.symm
            rw [he2]
          · exact inone p hp hpn e2 hge
        · intro hall p hp
          rcases List.mem_cons.mp hp with hp | hp
          · rw [hp]
          · exact iready hall p hp
      · -- handle not ready: skip this document
        rcases hrec : pollPhase ready rest base with ⟨restOut, baseOut⟩
        have hstep : pollPhase ready ((doc, some res) :: rest) base
            = ((doc, some res) :: restOut, baseOut) := by
          simp [pollPhase, hr, hrec]
        rw [hstep] at heq
        obtain ⟨h1, h2⟩ := Prod.mk.injEq _ _ _ _ ▸ heq
        subst h1
        subst h2
        obtain ⟨iInv, ikeys, idocs, itot, istarted, imono, iout, isome, inone, iready⟩ :=
          ih base hInv
            (fun p hp => hsub p (List.mem_cons_of_mem _ hp))
            hndrest
            (fun p hp r hpr e2 hge =>
              hsome p (List.mem_cons_of_mem _ hp) r hpr e2 hge)
            (fun p hp hpn e2 hge =>
              hnone p (List.mem_cons_of_mem _ hp) hpn e2 hge)
            restOut baseOut hrec
        refine ⟨iInv, ?_, idocs, itot, istarted, imono, ?_, ?_, ?_, ?_⟩
        · simp only [dkeys, List.map_cons] at ikeys ⊢
          rw [ikeys]
        · intro d hd
          simp only [dkeys, List.map_cons, List.mem_cons] at hd
          push_neg at hd
          exact iout d (by simpa [dkeys] using hd.2)
        · intro p hp r hpr e2 hge
          rcases List.mem_cons.mp hp with hp | hp
          · -- the untouched head handle still sits on an unprocessed doc
            have hge2 : dictGet doc baseOut.progress.details = some e2 := by
              rw [hp] at hge
              simpa using hge
            rw [iout doc hdocNotRest] at hge2
            exact hsome (doc, some res) (by simp) res rfl e2 hge2
          · exact isome p hp r hpr e2 hge
        · intro p hp hpn e2 hge
          rcases List.mem_cons.mp hp with hp | hp
          · rw [hp] at hpn
            exact Option.noConfusion hpn
          · exact inone p hp hpn e2 hge
        · intro hall p hp
          exact absurd (hall doc) (by simp [hr])
    | none =>
      rcases hrec : pollPhase ready rest base with ⟨restOut, baseOut⟩
      have hstep : pollPhase ready ((doc, none) :: rest) base
          = ((doc, none) :: restOut, baseOut) := by
        simp [pollPhase, hrec]
      rw [hstep] at heq
      obtain ⟨h1, h2⟩ := Prod.mk.injEq _ _ _ _ ▸ heq
      subst h1
      subst h2
      obtain ⟨iInv, ikeys, idocs, itot, istarted, imono, iout, isome, inone, iready⟩ :=
        ih base hInv
          (fun p hp => hsub p (List.mem_cons_of_mem _ hp))
          hndrest
          (fun p hp r hpr e2 hge =>
            hsome p (List.mem_cons_of_mem _ hp) r hpr e2 hge)
          (fun p hp hpn e2 hge =>
            hnone p (List.mem_cons_of_mem _ hp) hpn e2 hge)
          restOut baseOut hrec
      refine ⟨iInv, ?_, idocs, itot, istarted, imono, ?_, ?_, ?_, ?_⟩
      · simp only [dkeys, List.map_cons] at ikeys ⊢
        rw [ikeys]
      · intro d hd
        simp only [dkeys, List.map_cons, List.mem_cons] at hd
        push_neg at hd
        exact iout d (by simpa [dkeys] using hd.2)
      · intro p hp r hpr e2 hge
        rcases List.mem_cons.mp hp with hp | hp
        · rw [hp] at hpr
          exact Option.noConfusion hpr
        · exact isome p hp r hpr e2 hge
      · intro p hp hpn e2 hge
        rcases List.mem_cons.mp hp with hp | hp
        · have hge2 : dictGet doc baseOut.progress.details = some e2 := by
            rw [hp] at hge
            simpa using hge
          rw [iout doc hdocNotRest] at hge2
          exact hnone (doc, none) (by simp) rfl e2 hge2
        · exact inone p hp hpn e2 hge
      · intro hall p hp
        rcases List.mem_cons.mp hp with hp | hp
        · rw [hp]
        · exact iready hall p hp

/-- An async step on a finished batch is a no-op. -/
theorem asyncStep_done (analyze : String → TermMap) (ready : String → Bool)
    (a : AsyncState) (hdone : (checkProgress a.base).1 = false) :
    asyncStep analyze ready a = a := by
  simp [asyncStep, hdone]

/-- Key-membership transfer: a key of the task table is a key of the
progress dictionary. -/
theorem taskKey_mem_details (a : AsyncState)
    (hsub : ∀ p ∈ a.tasks, p.1 ∈ dkeys a.base.progress.details)
    (k : String) (hk : k ∈ dkeys a.tasks) :
    k ∈ dkeys a.base.progress.details := by
  obtain ⟨q, hq, hqk⟩ := List.mem_map.mp hk
  exact hqk ▸ hsub q hq

/-- `AsyncInv` is preserved by every async step. -/
theorem asyncInv_step (analyze : String → TermMap) (ready : String → Bool)
    (a : AsyncState) (hInv : AsyncInv a) :
    AsyncInv (asyncStep analyze ready a) := by
  obtain ⟨hbInv, hsub, hnd, hsome, hnone, hfresh⟩ := hInv
  by_cases hip : (checkProgress a.base).1
  · by_cases hst : a.base.started
    · -- polling branch
      rcases hrec : pollPhase ready a.tasks a.base with ⟨ts1, base1⟩
      have hstep : asyncStep analyze ready a = { base := base1, tasks := ts1 } := by
        simp [asyncStep, hip, hst, hrec]
      obtain ⟨iInv, ikeys, idocs, itot, istarted, imono, iout, isome, inone, iready⟩ :=
        pollPhase_spec ready a.tasks a.base hbInv hsub hnd hsome hnone ts1 base1 hrec
      rw [hstep]
      have hkeyseq : dkeys base1.progress.details = dkeys a.base.progress.details := by
        rw [iInv.2.1, idocs, hbInv.2.1]
      refine ⟨iInv, ?_, ?_, isome, inone, ?_⟩
      · intro p hp
        show p.1 ∈ dkeys base1.progress.details
        rw [hkeyseq]
        apply taskKey_mem_details a hsub
        rw [← ikeys]
        exact List.mem_map.mpr ⟨p, hp, rfl⟩
      · show (dkeys ts1).Nodup
        rw [ikeys]
        exact hnd
      · intro h
        rw [istarted] at h
        rw [hst] at h
        exact Bool.noConfusion h
    · -- dispatch branch
      have hst2 : a.base.started = false := by
        simpa using hst
      obtain ⟨htasks, hunproc⟩ := hfresh hst2
      have hstep : asyncStep analyze ready a = dispatchPhase analyze a := by
        simp [asyncStep, hip, hst2]
      rw [hstep]
      have hdocsnd : a.base.docs.Nodup := hbInv.1
      have htmap : a.base.docs.foldl
            (fun t d => dictSet d (some (analyze d)) t) a.tasks
          = a.base.docs.map (fun d => (d, some (analyze d))) := by
        rw [htasks]
        simpa using foldl_dictSet_eq_append (fun d => some (analyze d))
          a.base.docs [] hdocsnd (by simp [dkeys])
      refine ⟨⟨hbInv.1, hbInv.2.1, hbInv.2.2.1, hbInv.2.2.2⟩, ?_, ?_, ?_, ?_, ?_⟩
      · intro p hp
        show p.1 ∈ dkeys a.base.progress.details
        rw [hbInv.2.1]
        simp only [dispatchPhase, htmap] at hp
        obtain ⟨d, hd, hdp⟩ := List.mem_map.mp hp
        rw [← hdp]
        exact hd
      · show (dkeys (dispatchPhase analyze a).tasks).Nodup
        simp only [dispatchPhase, htmap]
        rw [dkeys_map_pair]
        exact hdocsnd
      · intro p hp r hpr e hge
        simp only [dispatchPhase] at hge
        exact hunproc (p.1, e) (mem_of_dictGet_eq_some _ _ _ hge)
      · intro p hp hpn
        simp only [dispatchPhase, htmap] at hp
        obtain ⟨d, hd, hdp⟩ := List.mem_map.mp hp
        rw [← hdp] at hpn
        exact absurd hpn (by simp)
      · intro h
        simp only [dispatchPhase] at h
        exact Bool.noConfusion h
  · have hnip : (checkProgress a.base).1 = false := by
      simpa using hip
    rw [asyncStep_done analyze ready a hnip]
    exact ⟨hbInv, hsub, hnd, hsome, hnone, hfresh⟩

/-- States reachable by constructing an `AsyncMultiDocAnalyzer` on a
(duplicate-free) batch and calling `perform_analysis` any number of
times, with arbitrary job-readiness at each polling step. -/
inductive AsyncReach (analyze : String → TermMap) : AsyncState → Prop where
  | init (docs : List String) (language : String) (stem : Bool)
      (stopwords : List String) : docs.Nodup →
      AsyncReach analyze (asyncInit docs language stem stopwords)
  | step (ready : String → Bool) (a : AsyncState) :
      AsyncReach analyze a → AsyncReach analyze (asyncStep analyze ready a)

theorem asyncInv_of_reach (analyze : String → TermMap) (a : AsyncState)
    (h : AsyncReach analyze a) : AsyncInv a := by
  induction h with
  | init docs language stem stopwords hnd => exact asyncInv_init docs language stem stopwords hnd
  | step ready a hr ih => exact asyncInv_step analyze ready a ih

/-- `completed` never decreases across an async step. -/
theorem asyncStep_completed_mono (analyze : String → TermMap)
    (ready : String → Bool) (a : AsyncState) (hInv : AsyncInv a) :
    a.base.progress.completed
      ≤ (asyncStep analyze ready a).base.progress.completed := by
  obtain ⟨hbInv, hsub, hnd, hsome, hnone, hfresh⟩ := hInv
  by_cases hip : (checkProgress a.base).1
  · by_cases hst : a.base.started
    · rcases hrec : pollPhase ready a.tasks a.base with ⟨ts1, base1⟩
      have hstep : asyncStep analyze ready a = { base := base1, tasks := ts1 } := by
        simp [asyncStep, hip, hst, hrec]
      obtain ⟨-, -, -, -, -, imono, -, -, -, -⟩ :=
        pollPhase_spec ready a.tasks a.base hbInv hsub hnd hsome hnone ts1 base1 hrec
      rw [hstep]
      exact imono
    · have hst2 : a.base.started = false := by
        simpa using hst
      have hstep : asyncStep analyze ready a = dispatchPhase analyze a := by
        simp [asyncStep, hip, hst2]
      rw [hstep]
      exact Nat.le_refl _
  · rw [asyncStep_done analyze ready a (by simpa using hip)]

/-! ### Combine: fold characterization -/

/-- All `(document, term, data)` occurrences of a details dictionary, in
`combine_output`'s iteration order (documents in construction order, then
each document's term map in its own order). -/
def detailOccs (details : List (String × ProgressEntry)) :
    List (String × String × TermData) :=
  details.flatMap (fun p => (p.2.results.getD []).map (fun q => (p.1, q.1, q.2)))

/-- One accumulator update of the combine fold, applied to a flattened
occurrence. -/
def occStep (a : List (String × CombinedData))
    (o : String × String × TermData) : List (String × CombinedData) :=
  combineTerm o.1 a o.2.1 o.2.2

/-- The occurrences of one term, in fold order. -/
def occsFor (t : String) (occs : List (String × String × TermData)) :
    List (String × String × TermData) :=
  occs.filter (fun o => decide (o.2.1 = t))

def sumCounts (os : List (String × String × TermData)) : Nat :=
  (os.map (fun o => o.2.2.count)).sum

/-- Extending one combined entry by further occurrences of its term. -/
def extendC (e : CombinedData) (os : List (String × String × TermData)) :
    CombinedData :=
  { count := e.count + sumCounts os
  , documents := e.documents ++ os.map (·.1)
  , sentences := e.sentences ++ os.flatMap (fun o => o.2.2.sentences) }

/-- The combined entry seeded by the first sighting of a term and
extended by the rest of its occurrences. -/
def seedC : List (String × String × TermData) → Option CombinedData
  | [] => none
  | o :: os => some (extendC
      { count := o.2.2.count
      , documents := [o.1]
      , sentences := o.2.2.sentences } os)

/-- When all results are present, `combine_output`'s nested loops are the
fold of `occStep` over the flattened occurrence list. -/
theorem combineFold_ok (details : List (String × ProgressEntry)) :
    ∀ acc, (∀ p ∈ details, p.2.results.isSome) →
      combineFold acc details = .ok ((detailOccs details).foldl occStep acc) := by
  induction details with
  | nil =>
    intro acc _
    rfl
  | cons p rest ih =>
    intro acc hall
    rcases p with ⟨doc, e⟩
    rcases he : e.results with _ | tm
    · exact absurd (hall (doc, e) (by simp)) (by simp [he])
    · show combineFold acc ((doc, e) :: rest) = _
      simp only [combineFold, he]
      rw [ih _ (fun q hq => hall q (List.mem_cons_of_mem _ hq))]
      congr 1
      show (detailOccs rest).foldl occStep (combineDoc acc doc tm)
        = (detailOccs ((doc, e) :: rest)).foldl occStep acc
      have hocc : detailOccs ((doc, e) :: rest)
          = tm.map (fun q => (doc, q.1, q.2)) ++ detailOccs rest := by
        simp [detailOccs, he]
      rw [hocc, List.foldl_append]
      congr 1
      show combineDoc acc doc tm
        = (tm.map (fun q => (doc, q.1, q.2))).foldl occStep acc
      rw [List.foldl_map]
      rfl

/-- A `None` results entry anywhere makes the nested loops raise. -/
theorem combineFold_error (details : List (String × ProgressEntry)) :
    ∀ acc, (∃ p ∈ details, p.2.results = none) →
      combineFold acc details = .error .attributeError := by
  induction details with
  | nil =>
    intro acc h
    obtain ⟨p, hp, -⟩ := h
    exact absurd hp (List.not_mem_nil p)
  | cons p rest ih =>
    intro acc h
    rcases p with ⟨doc, e⟩
    rcases he : e.results with _ | tm
    · show combineFold acc ((doc, e) :: rest) = _
      simp [combineFold, he]
    · show combineFold acc ((doc, e) :: rest) = _
      simp only [combineFold, he]
      apply ih
      obtain ⟨q, hq, hqn⟩ := h
      rcases List.mem_cons.mp hq with hq | hq
      · rw [hq] at hqn
        simp only at hqn
        rw [he] at hqn
        exact Option.noConfusion hqn
      · exact ⟨q, hq, hqn⟩

theorem extendC_cons (e : CombinedData) (o : String × String × TermData)
    (os : List (String × String × TermData)) :
    extendC e (o :: os)
      = extendC { count := e.count + o.2.2.count
                , documents := e.documents ++ [o.1]
                , sentences := e.sentences ++ o.2.2.sentences } os := by
  simp [extendC, sumCounts, List.append_assoc, Nat.add_assoc]

/-- Fold lookup, existing-entry case: later occurrences of `t` extend its
entry in place. -/
theorem occFold_lookup_some (occs : List (String × String × TermData)) :
    ∀ acc t e, dictGet t acc = some e →
      dictGet t (occs.foldl occStep acc) = some (extendC e (occsFor t occs)) := by
  induction occs with
  | nil =>
    intro acc t e hget
    simp only [List.foldl_nil, hget, occsFor, List.filter_nil]
    simp [extendC, sumCounts]
  | cons o os ih =>
    intro acc t e hget
    rw [List.foldl_cons]
    by_cases hterm : o.2.1 = t
    · have hget2 : dictGet o.2.1 acc = some e := hterm ▸ hget
      have hstep : occStep acc o
          = dictSet o.2.1
              { count := e.count + o.2.2.count
              , documents := e.documents ++ [o.1]
              , sentences := e.sentences ++ o.2.2.sentences } acc := by
        simp [occStep, combineTerm, hget2]
      have hget3 : dictGet t (occStep acc o)
          = some { count := e.count + o.2.2.count
                 , documents := e.documents ++ [o.1]
                 , sentences := e.sentences ++ o.2.2.sentences } := by
        rw [hstep, hterm]
        exact dictGet_dictSet_self _ _ _
      rw [ih _ _ _ hget3]
      have hfor : occsFor t (o :: os) = o :: occsFor t os := by
        simp [occsFor, List.filter_cons, hterm]
      rw [hfor, extendC_cons]
    · have hget3 : dictGet t (occStep acc o) = some e := by
        have : occStep acc o = dictSet o.2.1 (match dictGet o.2.1 acc with
          | some existing =>
              { count := existing.count + o.2.2.count
              , documents := existing.documents ++ [o.1]
              , sentences := existing.sentences ++ o.2.2.sentences }
          | none =>
              { count := o.2.2.count
              , documents := [o.1]
              , sentences := o.2.2.sentences }) acc := by
          simp only [occStep, combineTerm]
          rcases dictGet o.2.1 acc with _ | ex <;> rfl
        rw [this, dictGet_dictSet_ne _ _ _ _ (fun h => hterm h.symm)]
        exact hget
      rw [ih _ _ _ hget3]
      have hfor : occsFor t (o :: os) = occsFor t os := by
        simp [occsFor, List.filter_cons, hterm]
      rw [hfor]

/-- Fold lookup, fresh-term case: the first occurrence seeds the entry
and the rest extend it. -/
theorem occFold_lookup_none (occs : List (String × String × TermData)) :
    ∀ acc t, dictGet t acc = none →
      dictGet t (occs.foldl occStep acc) = seedC (occsFor t occs) := by
  induction occs with
  | nil =>
    intro acc t hget
    simp only [List.foldl_nil, hget, occsFor, List.filter_nil, seedC]
  | cons o os ih =>
    intro acc t hget
    rw [List.foldl_cons]
    by_cases hterm : o.2.1 = t
    · have hget2 : dictGet o.2.1 acc = none := hterm ▸ hget
      have hstep : occStep acc o
          = dictSet o.2.1
              { count := o.2.2.count
              , documents := [o.1]
              , sentences := o.2.2.sentences } acc := by
        simp [occStep, combineTerm, hget2]
      have hget3 : dictGet t (occStep acc o)
          = some { count := o.2.2.count
                 , documents := [o.1]
                 , sentences := o.2.2.sentences } := by
        rw [hstep, hterm]
        exact dictGet_dictSet_self _ _ _
      rw [occFold_lookup_some os _ _ _ hget3]
      have hfor : occsFor t (o :: os) = o :: occsFor t os := by
        simp [occsFor, List.filter_cons, hterm]
      rw [hfor]
      rfl
    · have hget3 : dictGet t (occStep acc o) = none := by
        have : occStep acc o = dictSet o.2.1 (match dictGet o.2.1 acc with
          | some existing =>
              { count := existing.count + o.2.2.count
              , documents := existing.documents ++ [o.1]
              , sentences := existing.sentences ++ o.2.2.sentences }
          | none =>
              { count := o.2.2.count
              , documents := [o.1]
              , sentences := o.2.2.sentences }) acc := by
          simp only [occStep, combineTerm]
          rcases dictGet o.2.1 acc with _ | ex <;> rfl
        rw [this, dictGet_dictSet_ne _ _ _ _ (fun h => hterm h.symm)]
        exact hget
      rw [ih _ _ hget3]
      have hfor : occsFor t (o :: os) = occsFor t os := by
        simp [occsFor, List.filter_cons, hterm]
      rw [hfor]

/-! ### First-sighting order of accumulator keys -/

/-- Keep-first deduplication relative to an already-seen list: the order
in which a stream of terms first appears. -/
def dedupFirstAux (seen : List String) : List String → List String
  | [] => []
  | t :: ts =>
    if seen.contains t then dedupFirstAux seen ts
    else t :: dedupFirstAux (t :: seen) ts

theorem dedupFirstAux_congr (l : List String) :
    ∀ s1 s2 : List String, (∀ x, x ∈ s1 ↔ x ∈ s2) →
      dedupFirstAux s1 l = dedupFirstAux s2 l := by
  induction l with
  | nil => intro s1 s2 _; rfl
  | cons t ts ih =>
    intro s1 s2 hequiv
    by_cases hmem : t ∈ s1
    · have hmem2 : t ∈ s2 := (hequiv t).mp hmem
      simp only [dedupFirstAux, contains_eq_decide_mem, hmem, hmem2,
        decide_True, reduceIte]
      exact ih s1 s2 hequiv
    · have hmem2 : t ∉ s2 := fun hc => hmem ((hequiv t).mpr hc)
      simp only [dedupFirstAux, contains_eq_decide_mem, hmem, hmem2,
        decide_False, Bool.false_eq_true, reduceIte, if_false]
      rw [ih (t :: s1) (t :: s2) (by intro x; simp [hequiv x])]

theorem mem_dedupFirstAux (l : List String) :
    ∀ (seen : List String) (x : String),
      x ∈ dedupFirstAux seen l ↔ (x ∈ l ∧ x ∉ seen) := by
  induction l with
  | nil => intro seen x; simp [dedupFirstAux]
  | cons t ts ih =>
    intro seen x
    by_cases hmem : t ∈ seen
    · simp only [dedupFirstAux, contains_eq_decide_mem, hmem, decide_True,
        reduceIte]
      rw [ih seen x]
      constructor
      · rintro ⟨h1, h2⟩
        exact ⟨List.mem_cons_of_mem t h1, h2⟩
      · rintro ⟨h1, h2⟩
        rcases List.mem_cons.mp h1 with h1 | h1
        · exact absurd (h1 ▸ hmem) h2
        · exact ⟨h1, h2⟩
    · simp only [dedupFirstAux, contains_eq_decide_mem, hmem, decide_False,
        Bool.false_eq_true, reduceIte, if_false, List.mem_cons]
      rw [ih (t :: seen) x]
      constructor
      · rintro (h | ⟨h1, h2⟩)
        · exact ⟨Or.inl h, h ▸ hmem⟩
        · refine ⟨Or.inr h1, ?_⟩
          intro hc
          exact h2 (List.mem_cons_of_mem t hc)
      · rintro ⟨h1 | h1, h2⟩
        · exact Or.inl h1
        · by_cases hx : x = t
          · exact Or.inl hx
          · refine Or.inr ⟨h1, ?_⟩
            intro hc
            rcases List.mem_cons.mp hc with hc | hc
            · exact hx hc
            · exact h2 hc

theorem dedupFirstAux_nodup (l : List String) :
    ∀ seen : List String, (dedupFirstAux seen l).Nodup := by
  induction l with
  | nil => intro seen; simp [dedupFirstAux]
  | cons t ts ih =>
    intro seen
    by_cases hmem : t ∈ seen
    · simpa only [dedupFirstAux, contains_eq_decide_mem, hmem, decide_True,
        reduceIte] using ih seen
    · simp only [dedupFirstAux, contains_eq_decide_mem, hmem, decide_False,
        Bool.false_eq_true, reduceIte, if_false, List.nodup_cons]
      refine ⟨?_, ih (t :: seen)⟩
      intro hc
      exact ((mem_dedupFirstAux ts (t :: seen) t).mp hc).2 (by simp)

/-- The keys of the combine accumulator: the keys already present,
followed by the new terms in first-sighting order. -/
theorem occFold_keys (occs : List (String × String × TermData)) :
    ∀ acc, dkeys (occs.foldl occStep acc)
      = dkeys acc ++ dedupFirstAux (dkeys acc) (occs.map (fun o => o.2.1)) := by
  induction occs with
  | nil => intro acc; simp [dedupFirstAux]
  | cons o os ih =>
    intro acc
    rw [List.foldl_cons]
    by_cases hmem : o.2.1 ∈ dkeys acc
    · have hkeys : dkeys (occStep acc o) = dkeys acc := by
        have hbranch : occStep acc o = dictSet o.2.1 (match dictGet o.2.1 acc with
          | some existing =>
              { count := existing.count + o.2.2.count
              , documents := existing.documents ++ [o.1]
              , sentences := existing.sentences ++ o.2.2.sentences }
          | none =>
              { count := o.2.2.count
              , documents := [o.1]
              , sentences := o.2.2.sentences }) acc := by
          simp only [occStep, combineTerm]
          rcases dictGet o.2.1 acc with _ | ex <;> rfl
        rw [hbranch]
        exact dkeys_dictSet_of_mem _ _ _ hmem
      rw [ih, hkeys]
      simp only [List.map_cons, dedupFirstAux, contains_eq_decide_mem, hmem,
        decide_True, reduceIte]
    · have hnone : dictGet o.2.1 acc = none := (dictGet_eq_none_iff _ _).mpr hmem
      have hkeys : dkeys (occStep acc o) = dkeys acc ++ [o.2.1] := by
        simp only [occStep, combineTerm, hnone]
        rw [dictSet_eq_append_of_not_mem _ _ _ hmem]
        simp [dkeys]
      rw [ih, hkeys]
      simp only [List.map_cons, dedupFirstAux, contains_eq_decide_mem, hmem,
        decide_False, Bool.false_eq_true, reduceIte, if_false]
      rw [dedupFirstAux_congr _ (dkeys acc ++ [o.2.1]) (o.2.1 :: dkeys acc)
        (by intro x; simp [or_comm])]
      simp

theorem occFold_keys_nodup (occs : List (String × String × TermData))
    (acc : List (String × CombinedData)) (hnd : (dkeys acc).Nodup) :
    (dkeys (occs.foldl occStep acc)).Nodup := by
  rw [occFold_keys]
  rw [List.nodup_append]
  refine ⟨hnd, dedupFirstAux_nodup _ _, ?_⟩
  intro x hx hc
  exact ((mem_dedupFirstAux _ _ x).mp hc).2 hx

/-! ### The stable descending sort -/

theorem countDescLe_trans (a b c : String × CombinedData)
    (h1 : decide (b.2.count ≤ a.2.count) = true)
    (h2 : decide (c.2.count ≤ b.2.count) = true) :
    decide (c.2.count ≤ a.2.count) = true := by
  simp only [decide_eq_true_eq] at *
  omega

theorem countDescLe_total (a b : String × CombinedData) :
    (decide (b.2.count ≤ a.2.count) || decide (a.2.count ≤ b.2.count)) = true := by
  rcases Nat.le_total b.2.count a.2.count with h | h <;> simp [h]

theorem pySorted_perm (l : List (String × CombinedData)) :
    List.Perm (pySortedByCountDesc l) l :=
  List.mergeSort_perm l _

theorem pySorted_pairwise (l : List (String × CombinedData)) :
    (pySortedByCountDesc l).Pairwise (fun a b => b.2.count ≤ a.2.count) := by
  have h := @List.sorted_mergeSort (String × CombinedData)
    (fun a b => decide (b.2.count ≤ a.2.count))
    countDescLe_trans countDescLe_total l
  exact h.imp (by intro a b hab; simpa using hab)

theorem pySorted_stable (l c : List (String × CombinedData))
    (hp : c.Pairwise (fun a b => decide (b.2.count ≤ a.2.count) = true))
    (hs : c.Sublist l) : c.Sublist (pySortedByCountDesc l) :=
  List.sublist_mergeSort countDescLe_trans countDescLe_total hp hs

/-! ### Remaining supporting lemmas -/

theorem countProcessed_eq_length (l : List (String × ProgressEntry))
    (h : ∀ p ∈ l, p.2.processed = true) : countProcessed l = l.length :=
  List.filter_length_eq_length.mpr h

/-- Under the invariant, `check_progress` reports done exactly when every
entry is processed. -/
theorem inv_checkProgress_iff (s : AnalyzerState) (hInv : Inv s) :
    ((checkProgress s).1 = false
      ↔ ∀ p ∈ s.progress.details, p.2.processed = true) := by
  obtain ⟨hnd, hkeys, htot, hcomp⟩ := hInv
  have hlen : s.progress.details.length = s.docs.length := by
    have := congrArg List.length hkeys
    simpa [dkeys] using this
  constructor
  · intro h
    have hge : s.progress.total ≤ s.progress.completed := by
      simpa [checkProgress] using h
    have hle := countProcessed_le_length s.progress.details
    have hcnt : countProcessed s.progress.details = s.progress.details.length := by
      omega
    exact List.filter_length_eq_length.mp hcnt
  · intro hall
    have hcnt : countProcessed s.progress.details = s.progress.details.length :=
      countProcessed_eq_length _ hall
    show decide (s.progress.completed < s.progress.total) = false
    simp only [decide_eq_false_iff_not, Nat.not_lt]
    omega

/-- The first `step()` of a fresh async batch: dispatch-all. -/
theorem asyncFresh_spec (analyze : String → TermMap) (ready : String → Bool)
    (docs : List String) (language : String) (stem : Bool)
    (stopwords : List String) (hnd : docs.Nodup) (hne : docs ≠ []) :
    (asyncStep analyze ready (asyncInit docs language stem stopwords)).tasks
        = docs.map (fun d => (d, some (analyze d))) ∧
    (asyncStep analyze ready (asyncInit docs language stem stopwords)).base
        = { docs := docs
          , progress :=
            { total := docs.length, completed := 0, details := initDetails docs }
          , language := language
          , started := true
          , stem := stem
          , stopwords := stopwords } := by
  have hip : (checkProgress (asyncInit docs language stem stopwords).base).1 = true := by
    have hpos : 0 < docs.length := List.length_pos.mpr hne
    simp [asyncInit, mInit, checkProgress, hpos]
  have hstep : asyncStep analyze ready (asyncInit docs language stem stopwords)
      = dispatchPhase analyze (asyncInit docs language stem stopwords) := by
    rw [asyncStep, hip]
    rfl
  constructor
  · rw [hstep]
    show docs.foldl (fun t d => dictSet d (some (analyze d)) t) [] = _
    simpa using foldl_dictSet_eq_append (fun d => some (analyze d)) docs []
      hnd (by simp [dkeys])
  · rw [hstep]
    rfl

theorem getLastD_cons_mem (b : String) (l : List String) :
    ∀ d : String, (b :: l).getLastD d ∈ b :: l := by
  induction l generalizing b with
  | nil =>
    intro d
    rw [List.getLastD_cons]
    simp [List.getLastD]
  | cons c m ih =>
    intro d
    rw [List.getLastD_cons]
    exact List.mem_cons_of_mem b (ih c b)

theorem seedC_spec (os : List (String × String × TermData)) (cd : CombinedData)
    (h : seedC os = some cd) :
    cd.count = sumCounts os ∧
    cd.documents = os.map (·.1) ∧
    cd.sentences = os.flatMap (fun o => o.2.2.sentences) := by
  rcases os with _ | ⟨o, os⟩
  · exact Option.noConfusion h
  · simp only [seedC, Option.some.injEq] at h
    rw [← h]
    refine ⟨?_, ?_, ?_⟩ <;> simp [extendC, sumCounts]

/-! ### Claim theorems -/

/-- C8: whenever `inProgress` is true, `combine_output()` raises
(`ValueError("Still processing!")`) rather than returning partial data,
and `analysis_success()` returns `(false, [])` — for every mid-run state
(in particular every batch of size ≥ 1 that is mid-run). -/
theorem C8_midrun_guards (s : AnalyzerState)
    (hip : (checkProgress s).1 = true) :
    combineOutput s = .error .stillProcessing ∧
    analysisSuccess s = (false, []) := by
  constructor
  · simp [combineOutput, hip]
  · simp [analysisSuccess, hip]

theorem C8_midrun_guards_witness :
    (checkProgress (mInit ["a"] "english" false [])).1 = true ∧
    (combineOutput (mInit ["a"] "english" false [])
        = .error .stillProcessing ∧
      analysisSuccess (mInit ["a"] "english" false []) = (false, [])) :=
  ⟨by decide, C8_midrun_guards (mInit ["a"] "english" false []) (by decide)⟩

/-- C2 counterexample: constructing `MultiDocAnalyzer` with the empty
document list raises nothing and yields a fully usable scheduler —
`check_progress` reports done immediately, `combine_output` returns an
empty report and `analysis_success` returns `(True, [])` — refuting
"construction does not yield a usable scheduler object". -/
theorem C2_counterexample :
    checkProgress (mInit [] "english" false []) = (false, 0) ∧
    combineOutput (mInit [] "english" false []) = .ok [] ∧
    analysisSuccess (mInit [] "english" false []) = (true, []) := by
  refine ⟨rfl, ?_, rfl⟩
  simp [combineOutput, checkProgress, mInit, initDetails, combineFold,
    pySortedByCountDesc, Except.map, List.mergeSort_nil]

/-- C2 amended: construction with an empty document set succeeds without
any error; the resulting scheduler has `total = 0`, immediately reports
`inProgress = false` with zero completed, and its operations behave
normally (`combine_output` gives the empty report, `analysis_success`
gives `(True, [])`). -/
theorem C2_empty_construction_succeeds (language : String) (stem : Bool)
    (stopwords : List String) :
    checkProgress (mInit [] language stem stopwords) = (false, 0) ∧
    combineOutput (mInit [] language stem stopwords) = .ok [] ∧
    analysisSuccess (mInit [] language stem stopwords) = (true, []) := by
  refine ⟨rfl, ?_, rfl⟩
  simp [combineOutput, checkProgress, mInit, initDetails, combineFold,
    pySortedByCountDesc, Except.map, List.mergeSort_nil]

theorem C2_empty_construction_succeeds_witness :
    checkProgress (mInit [] "french" true ["le"]) = (false, 0) ∧
    combineOutput (mInit [] "french" true ["le"]) = .ok [] ∧
    analysisSuccess (mInit [] "french" true ["le"]) = (true, []) :=
  C2_empty_construction_succeeds "french" true ["le"]

/-- C10: `_mark_doc_processed` enforces no precondition — on any state it
unconditionally overwrites the entry with `{processed: true, results}`
and increments `completed` by exactly one, so re-marking an
already-processed document leaves `completed` exceeding the number of
processed entries by one. -/
theorem C10_mark_unconditional (s : AnalyzerState) (doc : String)
    (r : Option TermMap) :
    (markDocProcessed doc r s).progress.completed
        = s.progress.completed + 1 ∧
    dictGet doc (markDocProcessed doc r s).progress.details
        = some ⟨true, r⟩ ∧
    (∀ e, dictGet doc s.progress.details = some e → e.processed = true →
      s.progress.completed = countProcessed s.progress.details →
      (markDocProcessed doc r s).progress.completed
        = countProcessed (markDocProcessed doc r s).progress.details + 1) := by
  refine ⟨rfl, dictGet_dictSet_self _ _ _, ?_⟩
  intro e hget hp hcomp
  have hcnt := countProcessed_dictSet doc ⟨true, r⟩ e s.progress.details hget
  simp [hp] at hcnt
  show s.progress.completed + 1
      = countProcessed (dictSet doc ⟨true, r⟩ s.progress.details) + 1
  omega

theorem C10_mark_unconditional_witness :
    (dictGet "a" (markDocProcessed "a" (some [])
          (mInit ["a"] "english" false [])).progress.details
        = some ⟨true, some []⟩ ∧
      (⟨true, some []⟩ : ProgressEntry).processed = true ∧
      (markDocProcessed "a" (some [])
          (mInit ["a"] "english" false [])).progress.completed
        = countProcessed (markDocProcessed "a" (some [])
            (mInit ["a"] "english" false [])).progress.details) ∧
    (markDocProcessed "a" none (markDocProcessed "a" (some [])
        (mInit ["a"] "english" false []))).progress.completed
      = countProcessed (markDocProcessed "a" none (markDocProcessed "a" (some [])
          (mInit ["a"] "english" false []))).progress.details + 1 :=
  ⟨⟨by decide, by decide, by decide⟩,
    (C10_mark_unconditional
      (markDocProcessed "a" (some []) (mInit ["a"] "english" false []))
      "a" none).2.2 ⟨true, some []⟩ (by decide) (by decide) (by decide)⟩

/-- C4: on every state reachable from construction via `step()` calls
(sync or async), `completed` equals the number of processed entries, and
therefore `check_progress` reports not-in-progress exactly when every
document's entry is processed. -/
theorem C4_completed_counts_processed (analyze : String → TermMap) :
    (∀ s, SyncReach analyze s →
      s.progress.completed = countProcessed s.progress.details ∧
      ((checkProgress s).1 = false
        ↔ ∀ p ∈ s.progress.details, p.2.processed = true)) ∧
    (∀ a, AsyncReach analyze a →
      a.base.progress.completed = countProcessed a.base.progress.details ∧
      ((checkProgress a.base).1 = false
        ↔ ∀ p ∈ a.base.progress.details, p.2.processed = true)) := by
  constructor
  · intro s hr
    have hInv := inv_of_syncReach analyze s hr
    exact ⟨hInv.2.2.2, inv_checkProgress_iff s hInv⟩
  · intro a hr
    have hInv := (asyncInv_of_reach analyze a hr).1
    exact ⟨hInv.2.2.2, inv_checkProgress_iff a.base hInv⟩

theorem C4_completed_counts_processed_witness :
    ((mInit ["a"] "english" false []).progress.completed
        = countProcessed (mInit ["a"] "english" false []).progress.details ∧
      ((checkProgress (mInit ["a"] "english" false [])).1 = false
        ↔ ∀ p ∈ (mInit ["a"] "english" false []).progress.details,
            p.2.processed = true)) ∧
    ((asyncInit ["a"] "english" false []).base.progress.completed
        = countProcessed
            (asyncInit ["a"] "english" false []).base.progress.details ∧
      ((checkProgress (asyncInit ["a"] "english" false []).base).1 = false
        ↔ ∀ p ∈ (asyncInit ["a"] "english" false []).base.progress.details,
            p.2.processed = true)) :=
  ⟨(C4_completed_counts_processed (fun _ => [])).1 _
      (SyncReach.init ["a"] "english" false [] (by decide)),
    (C4_completed_counts_processed (fun _ => [])).2 _
      (AsyncReach.init ["a"] "english" false [] (by decide))⟩

/-- C7: for both strategies, `completed` never decreases across a
`step()` call and never exceeds `total`. -/
theorem C7_completed_monotone (analyze : String → TermMap) :
    (∀ choose s s', Admissible choose → SyncReach analyze s →
      syncStep analyze choose s = some s' →
      s.progress.completed ≤ s'.progress.completed ∧
      s'.progress.completed ≤ s'.progress.total) ∧
    (∀ ready a, AsyncReach analyze a →
      a.base.progress.completed
          ≤ (asyncStep analyze ready a).base.progress.completed ∧
      (asyncStep analyze ready a).base.progress.completed
          ≤ (asyncStep analyze ready a).base.progress.total) := by
  constructor
  · intro choose s s' hadm hr hstep
    have hInv := inv_of_syncReach analyze s hr
    have hInv' := inv_syncStep analyze choose s s' hInv hadm hstep
    constructor
    · by_cases hip : (checkProgress s).1
      · obtain ⟨d, rest, hu, heq⟩ := syncStep_inProgress_eq analyze choose s hInv hip
        rw [heq] at hstep
        have hs : s' = markDocProcessed (choose (d :: rest))
            (some (analyze (choose (d :: rest)))) s :=
          (Option.some.injEq _ _ ▸ hstep).symm
        rw [hs]
        show s.progress.completed ≤ s.progress.completed + 1
        omega
      · have hdone := syncStep_done analyze choose s (by simpa using hip)
        rw [hdone] at hstep
        have hs : s' = s := (Option.some.injEq _ _ ▸ hstep).symm
        rw [hs]
    · exact completed_le_total_of_inv s' hInv'
  · intro ready a hr
    have hInv := asyncInv_of_reach analyze a hr
    refine ⟨asyncStep_completed_mono analyze ready a hInv, ?_⟩
    have hInv' : AsyncInv (asyncStep analyze ready a) :=
      asyncInv_step analyze ready a hInv
    exact completed_le_total_of_inv _ hInv'.1

theorem C7_completed_monotone_witness :
    (Admissible (fun l => l.headD "") ∧
      SyncReach (fun _ => ([] : TermMap)) (mInit ["a"] "english" false []) ∧
      syncStep (fun _ => ([] : TermMap)) (fun l => l.headD "")
          (mInit ["a"] "english" false [])
        = some (markDocProcessed "a" (some [])
            (mInit ["a"] "english" false [])) ∧
      AsyncReach (fun _ => ([] : TermMap)) (asyncInit ["a"] "english" false [])) ∧
    ((mInit ["a"] "english" false []).progress.completed
        ≤ (markDocProcessed "a" (some [])
            (mInit ["a"] "english" false [])).progress.completed ∧
      (markDocProcessed "a" (some [])
          (mInit ["a"] "english" false [])).progress.completed
        ≤ (markDocProcessed "a" (some [])
            (mInit ["a"] "english" false [])).progress.total) ∧
    ((asyncInit ["a"] "english" false []).base.progress.completed
        ≤ (asyncStep (fun _ => ([] : TermMap)) (fun _ => true)
            (asyncInit ["a"] "english" false [])).base.progress.completed ∧
      (asyncStep (fun _ => ([] : TermMap)) (fun _ => true)
          (asyncInit ["a"] "english" false [])).base.progress.completed
        ≤ (asyncStep (fun _ => ([] : TermMap)) (fun _ => true)
            (asyncInit ["a"] "english" false [])).base.progress.total) := by
  have hadm : Admissible (fun l : List String => l.headD "") := by
    intro l hl
    cases l with
    | nil => exact absurd rfl hl
    | cons a t => simp
  have hreach : SyncReach (fun _ => ([] : TermMap))
      (mInit ["a"] "english" false []) :=
    SyncReach.init ["a"] "english" false [] (by decide)
  have hareach : AsyncReach (fun _ => ([] : TermMap))
      (asyncInit ["a"] "english" false []) :=
    AsyncReach.init ["a"] "english" false [] (by decide)
  have hstep : syncStep (fun _ => ([] : TermMap)) (fun l => l.headD "")
      (mInit ["a"] "english" false [])
      = some (markDocProcessed "a" (some [])
          (mInit ["a"] "english" false [])) := by decide
  exact ⟨⟨hadm, hreach, hstep, hareach⟩,
    (C7_completed_monotone (fun _ => [])).1 _ _ _ hadm hreach hstep,
    (C7_completed_monotone (fun _ => [])).2 (fun _ => true) _ hareach⟩

/-- C6: while a sync batch is in progress, each `step()` marks exactly
one additional previously-unprocessed document (leaving every other
entry untouched and incrementing `completed` by one), and `total`
admissible `step()` calls from a fresh batch always reach
`inProgress = false`. -/
theorem C6_sync_one_doc_per_step (analyze : String → TermMap) :
    (∀ choose s, Admissible choose → SyncReach analyze s →
      (checkProgress s).1 = true →
      ∃ d e s', syncStep analyze choose s = some s' ∧
        d ∈ s.docs ∧
        dictGet d s.progress.details = some e ∧ e.processed = false ∧
        dictGet d s'.progress.details = some ⟨true, some (analyze d)⟩ ∧
        s'.progress.completed = s.progress.completed + 1 ∧
        (∀ d2, d2 ≠ d →
          dictGet d2 s'.progress.details = dictGet d2 s.progress.details)) ∧
    (∀ (docs : List String) (language : String) (stem : Bool)
        (stopwords : List String) (oracles : List (List String → String)),
      docs.Nodup → (∀ c ∈ oracles, Admissible c) →
      oracles.length = docs.length →
      ∃ final, syncRun analyze oracles (mInit docs language stem stopwords)
          = some final ∧ (checkProgress final).1 = false) := by
  constructor
  · intro choose s hadm hr hip
    have hInv := inv_of_syncReach analyze s hr
    obtain ⟨d, e, s', hstep, hd, hget, hp, hget2, hcomp, -, -, hother⟩ :=
      syncStep_marks_one analyze choose s hInv hadm hip
    exact ⟨d, e, s', hstep, hd, hget, hp, hget2, hcomp, hother⟩
  · intro docs language stem stopwords oracles hnd hadm hlen
    have hInv := inv_mInit docs language stem stopwords hnd
    obtain ⟨final, hrun, hInvf, hcomp, htot⟩ :=
      syncRun_completed analyze oracles (mInit docs language stem stopwords)
        hInv hadm
    refine ⟨final, hrun, ?_⟩
    have h0 : (mInit docs language stem stopwords).progress.completed = 0 := rfl
    have h0t : (mInit docs language stem stopwords).progress.total
        = docs.length := rfl
    rw [h0, h0t] at hcomp
    rw [h0t] at htot
    show decide (final.progress.completed < final.progress.total) = false
    simp only [decide_eq_false_iff_not, Nat.not_lt]
    omega

theorem C6_sync_one_doc_per_step_witness :
    (Admissible (fun l => l.headD "") ∧
      SyncReach (fun _ => ([] : TermMap)) (mInit ["a"] "english" false []) ∧
      (checkProgress (mInit ["a"] "english" false [])).1 = true ∧
      (["a"] : List String).Nodup ∧
      (∀ c ∈ [fun l : List String => l.headD ""], Admissible c) ∧
      ([fun l : List String => l.headD ""] :
          List (List String → String)).length = (["a"] : List String).length) ∧
    (∃ d e s', syncStep (fun _ => ([] : TermMap)) (fun l => l.headD "")
          (mInit ["a"] "english" false []) = some s' ∧
        d ∈ (mInit ["a"] "english" false []).docs ∧
        dictGet d (mInit ["a"] "english" false []).progress.details = some e ∧
        e.processed = false ∧
        dictGet d s'.progress.details = some ⟨true, some []⟩ ∧
        s'.progress.completed
          = (mInit ["a"] "english" false []).progress.completed + 1 ∧
        (∀ d2, d2 ≠ d → dictGet d2 s'.progress.details
          = dictGet d2 (mInit ["a"] "english" false []).progress.details)) ∧
    (∃ final, syncRun (fun _ => ([] : TermMap))
          [fun l : List String => l.headD ""]
          (mInit ["a"] "english" false []) = some final ∧
        (checkProgress final).1 = false) := by
  have hadm : Admissible (fun l : List String => l.headD "") := by
    intro l hl
    cases l with
    | nil => exact absurd rfl hl
    | cons a t => simp
  have hreach : SyncReach (fun _ => ([] : TermMap))
      (mInit ["a"] "english" false []) :=
    SyncReach.init ["a"] "english" false [] (by decide)
  have halladm : ∀ c ∈ [fun l : List String => l.headD ""], Admissible c := by
    intro c hc
    rw [List.mem_singleton.mp hc]
    exact hadm
  refine ⟨⟨hadm, hreach, by decide, by decide, halladm, rfl⟩, ?_, ?_⟩
  · exact (C6_sync_one_doc_per_step (fun _ => [])).1 _ _ hadm hreach (by decide)
  · exact (C6_sync_one_doc_per_step (fun _ => [])).2 ["a"] "english" false []
      [fun l : List String => l.headD ""] (by decide) halladm rfl

/-- The combine accumulator of a state: the nested fold of
`combine_output` before sorting. -/
def combineAcc (s : AnalyzerState) : List (String × CombinedData) :=
  (detailOccs s.progress.details).foldl occStep []

/-- C1 counterexample: a completed batch (one document, marked processed
with `results = None`) on which `combine_output` raises
(`AttributeError` from `None.items()`) instead of skipping the document
and returning a report. -/
theorem C1_counterexample :
    (checkProgress (markDocProcessed "d1" none
        (mInit ["d1"] "english" false []))).1 = false ∧
    combineOutput (markDocProcessed "d1" none
        (mInit ["d1"] "english" false []))
      = .error .attributeError := by
  constructor
  · decide
  · rfl

/-- C1 amended: `combine_output` iterates the documents in construction
order and folds every document's results unconditionally — it returns a
`CombinedReport` when every entry's results are non-absent, and a
document whose `results` is `None` is not skipped: the call fails
(`AttributeError`) instead of returning a report built from the
remaining documents. -/
theorem C1_combine_no_skip (s : AnalyzerState)
    (hdone : (checkProgress s).1 = false) :
    ((∀ p ∈ s.progress.details, p.2.results.isSome) →
      combineOutput s = .ok (pySortedByCountDesc (combineAcc s))) ∧
    ((∃ p ∈ s.progress.details, p.2.results = none) →
      combineOutput s = .error .attributeError) := by
  constructor
  · intro hall
    simp only [combineOutput, hdone, Bool.false_eq_true, if_false, reduceIte]
    rw [combineFold_ok s.progress.details [] hall]
    rfl
  · intro hex
    simp only [combineOutput, hdone, Bool.false_eq_true, if_false, reduceIte]
    rw [combineFold_error s.progress.details [] hex]
    rfl

theorem C1_combine_no_skip_witness :
    ((checkProgress (markDocProcessed "d1" (some [("t", ⟨2, ["s1"]⟩)])
          (mInit ["d1"] "english" false []))).1 = false ∧
      (∀ p ∈ (markDocProcessed "d1" (some [("t", ⟨2, ["s1"]⟩)])
          (mInit ["d1"] "english" false [])).progress.details,
        p.2.results.isSome) ∧
      combineOutput (markDocProcessed "d1" (some [("t", ⟨2, ["s1"]⟩)])
          (mInit ["d1"] "english" false []))
        = .ok (pySortedByCountDesc (combineAcc (markDocProcessed "d1"
            (some [("t", ⟨2, ["s1"]⟩)]) (mInit ["d1"] "english" false []))))) ∧
    ((∃ p ∈ (markDocProcessed "d2" none
          (mInit ["d2"] "english" false [])).progress.details,
        p.2.results = none) ∧
      combineOutput (markDocProcessed "d2" none
          (mInit ["d2"] "english" false []))
        = .error .attributeError) :=
  ⟨⟨by decide, by decide,
      (C1_combine_no_skip (markDocProcessed "d1" (some [("t", ⟨2, ["s1"]⟩)])
          (mInit ["d1"] "english" false [])) (by decide)).1 (by decide)⟩,
    ⟨by decide,
      (C1_combine_no_skip (markDocProcessed "d2" none
          (mInit ["d2"] "english" false [])) (by decide)).2 (by decide)⟩⟩

theorem dkeys_perm (l1 l2 : List (String × α)) (h : List.Perm l1 l2) :
    List.Perm (dkeys l1) (dkeys l2) := by
  simpa [dkeys] using h.map (fun p : String × α => p.1)

/-- C3: on a completed batch with all results present, `combine_output`
returns one entry per distinct term; each entry's count is the sum of
the term's per-document counts and its documents/sentences are
concatenated in document-iteration order; the entries are sorted by
count descending by a stable sort, ties keeping the accumulator
(first-sighting) order, which is first-occurrence order of the flattened
occurrence stream. -/
theorem C3_combine_aggregates_and_sorts (s : AnalyzerState)
    (hdone : (checkProgress s).1 = false)
    (hall : ∀ p ∈ s.progress.details, p.2.results.isSome) :
    ∃ rep, combineOutput s = .ok rep ∧
      (dkeys rep).Nodup ∧
      (∀ t, t ∈ dkeys rep
        ↔ t ∈ (detailOccs s.progress.details).map (fun o => o.2.1)) ∧
      (∀ t cd, (t, cd) ∈ rep →
        cd.count = sumCounts (occsFor t (detailOccs s.progress.details)) ∧
        cd.documents = (occsFor t (detailOccs s.progress.details)).map (·.1) ∧
        cd.sentences = (occsFor t (detailOccs s.progress.details)).flatMap
          (fun o => o.2.2.sentences)) ∧
      rep.Pairwise (fun a b => b.2.count ≤ a.2.count) ∧
      (∀ a b, List.Sublist [a, b] (combineAcc s) → a.2.count = b.2.count →
        List.Sublist [a, b] rep) ∧
      dkeys (combineAcc s)
        = dedupFirstAux []
            ((detailOccs s.progress.details).map (fun o => o.2.1)) := by
  have hkeysAcc : dkeys (combineAcc s)
      = dedupFirstAux []
          ((detailOccs s.progress.details).map (fun o => o.2.1)) := by
    show dkeys ((detailOccs s.progress.details).foldl occStep [])
      = dedupFirstAux [] _
    rw [occFold_keys]
    rfl
  have hndAcc : (dkeys (combineAcc s)).Nodup :=
    occFold_keys_nodup _ [] (by simp [dkeys])
  have hperm : List.Perm (pySortedByCountDesc (combineAcc s)) (combineAcc s) :=
    pySorted_perm _
  refine ⟨pySortedByCountDesc (combineAcc s), ?_, ?_, ?_, ?_, ?_, ?_, hkeysAcc⟩
  · simp only [combineOutput, hdone, Bool.false_eq_true, if_false, reduceIte]
    rw [combineFold_ok s.progress.details [] hall]
    rfl
  · exact (dkeys_perm _ _ hperm).nodup_iff.mpr hndAcc
  · intro t
    have hmem : t ∈ dkeys (pySortedByCountDesc (combineAcc s))
        ↔ t ∈ dkeys (combineAcc s) := (dkeys_perm _ _ hperm).mem_iff
    rw [hmem, hkeysAcc, mem_dedupFirstAux]
    simp
  · intro t cd hmemrep
    have hmemacc : (t, cd) ∈ combineAcc s := hperm.subset hmemrep
    have hget : dictGet t (combineAcc s) = some cd :=
      dictGet_eq_some_of_mem_nodup t cd _ hndAcc hmemacc
    have hseed : seedC (occsFor t (detailOccs s.progress.details)) = some cd := by
      rw [← hget]
      exact (occFold_lookup_none (detailOccs s.progress.details) [] t rfl).symm
    exact seedC_spec _ cd hseed
  · exact pySorted_pairwise _
  · intro a b hsub heq
    apply pySorted_stable
    · exact List.pairwise_pair.mpr (by simp [heq])
    · exact hsub

theorem C3_combine_aggregates_and_sorts_witness :
    ((checkProgress (markDocProcessed "D2"
          (some [("cat", ⟨1, ["A cat ran."]⟩), ("dog", ⟨3, ["Dogs bark."]⟩)])
          (markDocProcessed "D1" (some [("cat", ⟨2, ["The cat sat."]⟩)])
            (mInit ["D1", "D2"] "english" false [])))).1 = false ∧
      (∀ p ∈ (markDocProcessed "D2"
          (some [("cat", ⟨1, ["A cat ran."]⟩), ("dog", ⟨3, ["Dogs bark."]⟩)])
          (markDocProcessed "D1" (some [("cat", ⟨2, ["The cat sat."]⟩)])
            (mInit ["D1", "D2"] "english" false []))).progress.details,
        p.2.results.isSome)) ∧
    (∃ rep, combineOutput (markDocProcessed "D2"
          (some [("cat", ⟨1, ["A cat ran."]⟩), ("dog", ⟨3, ["Dogs bark."]⟩)])
          (markDocProcessed "D1" (some [("cat", ⟨2, ["The cat sat."]⟩)])
            (mInit ["D1", "D2"] "english" false []))) = .ok rep ∧
      (dkeys rep).Nodup ∧
      (∀ t, t ∈ dkeys rep
        ↔ t ∈ (detailOccs (markDocProcessed "D2"
            (some [("cat", ⟨1, ["A cat ran."]⟩), ("dog", ⟨3, ["Dogs bark."]⟩)])
            (markDocProcessed "D1" (some [("cat", ⟨2, ["The cat sat."]⟩)])
              (mInit ["D1", "D2"] "english" false []))).progress.details).map
                (fun o => o.2.1)) ∧
      (∀ t cd, (t, cd) ∈ rep →
        cd.count = sumCounts (occsFor t (detailOccs (markDocProcessed "D2"
            (some [("cat", ⟨1, ["A cat ran."]⟩), ("dog", ⟨3, ["Dogs bark."]⟩)])
            (markDocProcessed "D1" (some [("cat", ⟨2, ["The cat sat."]⟩)])
              (mInit ["D1", "D2"] "english" false []))).progress.details)) ∧
        cd.documents = (occsFor t (detailOccs (markDocProcessed "D2"
            (some [("cat", ⟨1, ["A cat ran."]⟩), ("dog", ⟨3, ["Dogs bark."]⟩)])
            (markDocProcessed "D1" (some [("cat", ⟨2, ["The cat sat."]⟩)])
              (mInit ["D1", "D2"] "english" false []))).progress.details)).map
                (·.1) ∧
        cd.sentences = (occsFor t (detailOccs (markDocProcessed "D2"
            (some [("cat", ⟨1, ["A cat ran."]⟩), ("dog", ⟨3, ["Dogs bark."]⟩)])
            (markDocProcessed "D1" (some [("cat", ⟨2, ["The cat sat."]⟩)])
              (mInit ["D1", "D2"] "english" false []))).progress.details)).flatMap
                (fun o => o.2.2.sentences)) ∧
      rep.Pairwise (fun a b => b.2.count ≤ a.2.count) ∧
      (∀ a b, List.Sublist [a, b] (combineAcc (markDocProcessed "D2"
            (some [("cat", ⟨1, ["A cat ran."]⟩), ("dog", ⟨3, ["Dogs bark."]⟩)])
            (markDocProcessed "D1" (some [("cat", ⟨2, ["The cat sat."]⟩)])
              (mInit ["D1", "D2"] "english" false [])))) →
          a.2.count = b.2.count → List.Sublist [a, b] rep) ∧
      dkeys (combineAcc (markDocProcessed "D2"
          (some [("cat", ⟨1, ["A cat ran."]⟩), ("dog", ⟨3, ["Dogs bark."]⟩)])
          (markDocProcessed "D1" (some [("cat", ⟨2, ["The cat sat."]⟩)])
            (mInit ["D1", "D2"] "english" false []))))
        = dedupFirstAux [] ((detailOccs (markDocProcessed "D2"
            (some [("cat", ⟨1, ["A cat ran."]⟩), ("dog", ⟨3, ["Dogs bark."]⟩)])
            (markDocProcessed "D1" (some [("cat", ⟨2, ["The cat sat."]⟩)])
              (mInit ["D1", "D2"] "english" false []))).progress.details).map
                (fun o => o.2.1))) :=
  ⟨⟨by decide, by decide⟩,
    C3_combine_aggregates_and_sorts _ (by decide) (by decide)⟩

/-- C5: on a fresh async batch, the first `step()` submits one job per
document (one non-absent handle per document, `completed` still 0); once
every handle reports ready, one further `step()` retrieves every result
and marks every document processed, leaving `completed = total` and no
non-absent handle. -/
theorem C5_async_dispatch_then_complete (analyze : String → TermMap)
    (ready1 : String → Bool) (docs : List String) (language : String)
    (stem : Bool) (stopwords : List String)
    (hnd : docs.Nodup) (hne : docs ≠ []) :
    ∀ a1, a1 = asyncStep analyze ready1 (asyncInit docs language stem stopwords) →
      (a1.tasks = docs.map (fun d => (d, some (analyze d))) ∧
        a1.base.progress.completed = 0) ∧
      (∀ ready2, (∀ d, ready2 d = true) →
        ∀ a2, a2 = asyncStep analyze ready2 a1 →
          a2.base.progress.completed = a2.base.progress.total ∧
          (∀ p ∈ a2.tasks, p.2 = none) ∧
          (checkProgress a2.base).1 = false) := by
  intro a1 ha1
  obtain ⟨htasks, hbase⟩ :=
    asyncFresh_spec analyze ready1 docs language stem stopwords hnd hne
  have ha1t : a1.tasks = docs.map (fun d => (d, some (analyze d))) := by
    rw [ha1, htasks]
  have ha1b : a1.base
      = { docs := docs
        , progress :=
          { total := docs.length, completed := 0, details := initDetails docs }
        , language := language
        , started := true
        , stem := stem
        , stopwords := stopwords } := by
    rw [ha1, hbase]
  have hdet : a1.base.progress.details
      = docs.map (fun d => (d, (⟨false, none⟩ : ProgressEntry))) := by
    rw [ha1b]
    exact initDetails_eq_map docs hnd
  have hdkeys : dkeys a1.base.progress.details = docs := by
    rw [hdet, dkeys_map_pair]
  have hbInv : Inv a1.base := by
    refine ⟨?_, ?_, ?_, ?_⟩
    · rw [ha1b]
      exact hnd
    · rw [hdkeys, ha1b]
    · rw [ha1b]
    · rw [ha1b]
      show (0 : Nat) = countProcessed (initDetails docs)
      rw [initDetails_eq_map docs hnd, countProcessed_map_false]
  refine ⟨⟨ha1t, by rw [ha1b]⟩, ?_⟩
  intro ready2 hall a2 ha2
  have hip1 : (checkProgress a1.base).1 = true := by
    rw [ha1b]
    show decide (0 < docs.length) = true
    simp [List.length_pos.mpr hne]
  have hst1 : a1.base.started = true := by
    rw [ha1b]
  -- the second step is a polling pass
  rcases hrec : pollPhase ready2 a1.tasks a1.base with ⟨ts2, base2⟩
  have hstep2 : asyncStep analyze ready2 a1 = { base := base2, tasks := ts2 } := by
    rw [asyncStep, hip1]
    simp only [Bool.not_true, Bool.false_eq_true, if_false, reduceIte]
    rw [hst1]
    simp only [if_true, reduceIte, hrec]
  have hsub : ∀ p ∈ a1.tasks, p.1 ∈ dkeys a1.base.progress.details := by
    intro p hp
    rw [hdkeys]
    rw [ha1t] at hp
    obtain ⟨d, hd, hdp⟩ := List.mem_map.mp hp
    rw [← hdp]
    exact hd
  have hndt : (dkeys a1.tasks).Nodup := by
    rw [ha1t, dkeys_map_pair]
    exact hnd
  have hsome : ∀ p ∈ a1.tasks, ∀ r : TermMap, p.2 = some r →
      ∀ e, dictGet p.1 a1.base.progress.details = some e →
        e.processed = false := by
    intro p hp r hpr e hge
    rw [ha1t] at hp
    obtain ⟨d, hd, hdp⟩ := List.mem_map.mp hp
    have hentry : dictGet p.1 a1.base.progress.details
        = some ⟨false, none⟩ := by
      rw [hdet]
      apply dictGet_eq_some_of_mem_nodup
      · rw [dkeys_map_pair]
        exact hnd
      · rw [← hdp]
        exact List.mem_map.mpr ⟨d, hd, rfl⟩
    rw [hentry] at hge
    have he : e = ⟨false, none⟩ := by simpa using hge.symm
    rw [he]
  have hnone : ∀ p ∈ a1.tasks, p.2 = none →
      ∀ e, dictGet p.1 a1.base.progress.details = some e →
        e.processed = true := by
    intro p hp hpn
    rw [ha1t] at hp
    obtain ⟨d, hd, hdp⟩ := List.mem_map.mp hp
    rw [← hdp] at hpn
    exact absurd hpn (by simp)
  obtain ⟨iInv, ikeys, idocs, itot, istarted, imono, iout, isome, inone, iready⟩ :=
    pollPhase_spec ready2 a1.tasks a1.base hbInv hsub hndt hsome hnone
      ts2 base2 hrec
  have ha2decomp : a2.base = base2 ∧ a2.tasks = ts2 := by
    rw [ha2, hstep2]
    exact ⟨rfl, rfl⟩
  have hkeys2 : dkeys base2.progress.details = docs := by
    rw [iInv.2.1, idocs, ha1b]
  have hallproc : ∀ p ∈ base2.progress.details, p.2.processed = true := by
    intro p hp
    have hkey : p.1 ∈ dkeys ts2 := by
      rw [ikeys, ha1t, dkeys_map_pair, ← hkeys2]
      exact List.mem_map.mpr ⟨p, hp, rfl⟩
    obtain ⟨q, hq, hqk⟩ := List.mem_map.mp hkey
    have hqn : q.2 = none := iready hall q hq
    have hget : dictGet p.1 base2.progress.details = some p.2 :=
      dictGet_eq_some_of_mem_nodup p.1 p.2 _
        (by rw [hkeys2]; exact hnd) hp
    have := inone q hq hqn p.2 (by rw [hqk]; exact hget)
    exact this
  have hlen2 : base2.progress.details.length = docs.length := by
    have := congrArg List.length hkeys2
    simpa [dkeys] using this
  have hcomp2 : base2.progress.completed = base2.progress.total := by
    rw [iInv.2.2.2, itot, countProcessed_eq_length _ hallproc, hlen2, ha1b]
  refine ⟨?_, ?_, ?_⟩
  · rw [ha2decomp.1]
    exact hcomp2
  · intro p hp
    rw [ha2decomp.2] at hp
    exact iready hall p hp
  · rw [ha2decomp.1]
    show decide (base2.progress.completed < base2.progress.total) = false
    simp [hcomp2]

theorem C5_async_dispatch_then_complete_witness :
    ((["a"] : List String).Nodup ∧ (["a"] : List String) ≠ [] ∧
      (∀ d : String, (fun _ : String => true) d = true)) ∧
    (((asyncStep (fun _ => ([] : TermMap)) (fun _ => false)
          (asyncInit ["a"] "english" false [])).tasks
        = (["a"] : List String).map (fun d => (d, some ([] : TermMap))) ∧
      (asyncStep (fun _ => ([] : TermMap)) (fun _ => false)
          (asyncInit ["a"] "english" false [])).base.progress.completed = 0) ∧
    ((asyncStep (fun _ => ([] : TermMap)) (fun _ => true)
          (asyncStep (fun _ => ([] : TermMap)) (fun _ => false)
            (asyncInit ["a"] "english" false []))).base.progress.completed
        = (asyncStep (fun _ => ([] : TermMap)) (fun _ => true)
            (asyncStep (fun _ => ([] : TermMap)) (fun _ => false)
              (asyncInit ["a"] "english" false []))).base.progress.total ∧
      (∀ p ∈ (asyncStep (fun _ => ([] : TermMap)) (fun _ => true)
            (asyncStep (fun _ => ([] : TermMap)) (fun _ => false)
              (asyncInit ["a"] "english" false []))).tasks, p.2 = none) ∧
      (checkProgress (asyncStep (fun _ => ([] : TermMap)) (fun _ => true)
            (asyncStep (fun _ => ([] : TermMap)) (fun _ => false)
              (asyncInit ["a"] "english" false []))).base).1 = false)) := by
  have h := C5_async_dispatch_then_complete (fun _ => ([] : TermMap))
    (fun _ => false) ["a"] "english" false [] (by decide) (by decide)
    (asyncStep (fun _ => ([] : TermMap)) (fun _ => false)
      (asyncInit ["a"] "english" false [])) rfl
  exact ⟨⟨by decide, by decide, fun d => rfl⟩,
    h.1, h.2 (fun _ => true) (fun d => rfl) _ rfl⟩

/-- C9: the sync strategy selects the next document with
`next(iter(set(docs) - set(processed)))`, whose enumeration order is not
specified; two admissible enumeration orders of the same batch (same
documents, language and flags) make `step()` process different documents
first, so the processing order is not reproducible across runs. -/
theorem C9_selection_nondeterministic :
    Admissible (fun l => l.headD "") ∧
    Admissible (fun l => l.getLastD "") ∧
    syncStep (fun _ => ([] : TermMap)) (fun l => l.headD "")
        (mInit ["docA", "docB"] "english" false [])
      ≠ syncStep (fun _ => ([] : TermMap)) (fun l => l.getLastD "")
        (mInit ["docA", "docB"] "english" false []) := by
  refine ⟨?_, ?_, ?_⟩
  · intro l hl
    cases l with
    | nil => exact absurd rfl hl
    | cons a t => simp
  · intro l hl
    cases l with
    | nil => exact absurd rfl hl
    | cons a t => exact getLastD_cons_mem a t ""
  · decide

end DocAnalyzer
